import Mathlib

/- Verification of the cronrepo core (src/cronrepo/__init__.py): tag-line
   parsing, classification, rendering, the crontab block-merge used by
   install/uninstall, and the k-way lazy invocation scheduler.  Text is
   modelled as lists of characters, so equality of texts is byte-for-byte
   equality; fallible external commands are modelled with explicit success
   flags, and the external cron-recurrence calculator (croniter) as an
   abstract `next` function that returns a strictly later time. -/

namespace Cronrepo

/-- Text is modelled as a list of characters. -/
abbrev Str := List Char

/-- Turn a Lean string literal into the character-list model of text. -/
def lc (s : String) : Str := s.data

/-- The newline character. -/
def nlc : Char := Char.ofNat 10

/-- The single-quote character that `CronSpec.cmd_str` puts around job ids. -/
def squote : Char := Char.ofNat 39

/-- Python whitespace (regex `\s`, `str.strip`): space, tab, newline,
carriage return, vertical tab, form feed. -/
def isPyWs (c : Char) : Bool :=
  c = ' ' || c = Char.ofNat 9 || c = Char.ofNat 10 || c = Char.ofNat 13 ||
  c = Char.ofNat 11 || c = Char.ofNat 12

/-- Regex `\w` (ASCII part): letters, digits and underscore. -/
def isWordChar (c : Char) : Bool := c.isAlphanum || c = '_'

/-- The character class `[-,*/\d]` of the five recurrence fields. -/
def isFieldChar (c : Char) : Bool :=
  c = '-' || c = ',' || c = '*' || c = '/' || c.isDigit

/-- Python `str.split` with a one-character separator: always returns at
least one (possibly empty) piece. -/
def pySplit (sep : Char) : Str → List Str
  | [] => [[]]
  | c :: rest =>
    if c = sep then [] :: pySplit sep rest
    else
      match pySplit sep rest with
      | [] => [[c]]
      | l :: ls => (c :: l) :: ls

/-- Python `sep.join` with a string separator. -/
def pyJoin (sep : Str) : List Str → Str
  | [] => []
  | [l] => l
  | l :: ls => l ++ sep ++ pyJoin sep ls

/-- `'\n'.join`, the join used on crontab line lists. -/
def joinNl (ls : List Str) : Str := pyJoin [nlc] ls

/-- `str.split('\n')`, the split used on crontab text. -/
def splitNl (s : Str) : List Str := pySplit nlc s

/-- Python `str.strip()`: drop leading and trailing whitespace. -/
def pyStrip (s : Str) : Str :=
  ((s.dropWhile isPyWs).reverse.dropWhile isPyWs).reverse

/-- Numeric value of a run of decimal digits. -/
def digitsVal (s : Str) : Nat :=
  s.foldl (fun a c => 10 * a + (c.toNat - 48)) 0

/-- Python `int` on strings of the shapes the level field can take
(`[+-]?digits+`, and the `'0'` default for an empty field). -/
def pyInt : Str → Int
  | '+' :: ds => (digitsVal ds : Int)
  | '-' :: ds => -(digitsVal ds : Int)
  | s => (digitsVal s : Int)

/-- The data carried by a `CronSpec`: the path of the file the tag line came
from, and the named groups of `CRON_LINE_RE` with `None` groups normalised to
the empty string, as done by `CronSpec.__init__` (`val or ''`). -/
structure CronInfo where
  path : Str
  target : Str
  jid : Str
  level : Str
  min : Str
  hr : Str
  day : Str
  mon : Str
  dow : Str
  args : Str
deriving DecidableEq

/-- The level group `(?:[+-]?[0-9]+)?` of `CRON_LINE_RE`.  The group is greedy
but can only take a sign when at least one digit follows; when a bare sign is
seen every backtracking alternative of the optional group also fails at the
mandatory `:` that follows it, so returning the empty group (and letting the
caller fail on the `:`) is equivalent to the backtracking semantics. -/
def parseLevel (r : Str) : Str × Str :=
  match r with
  | [] => ([], [])
  | c :: r1 =>
    if c = '+' ∨ c = '-' then
      if r1.takeWhile Char.isDigit = [] then ([], r)
      else (c :: r1.takeWhile Char.isDigit, r1.dropWhile Char.isDigit)
    else
      (r.takeWhile Char.isDigit, r.dropWhile Char.isDigit)

/-- One recurrence field `[-,*/\d]+` followed by the mandatory `\s+`.  The
classes of field characters and whitespace are disjoint, so greedy maximal
munch is exactly the regex behaviour. -/
def parseFieldWs (r : Str) : Option (Str × Str) :=
  if r.takeWhile isFieldChar = [] then none
  else if (r.dropWhile isFieldChar).takeWhile isPyWs = [] then none
  else some (r.takeWhile isFieldChar, (r.dropWhile isFieldChar).dropWhile isPyWs)

/-- The tail `\s*(?:\+(?P<args>.*)|)$` after the day-of-week field.  `.` does
not match a newline and Python `$` matches at the end of the string or just
before a final newline, so after `+` the args group is the newline-free prefix
of the rest, and the rest must end there or consist of exactly one more
newline character. -/
def parseTailAux : Str → Option Str
  | [] => some []
  | c :: a =>
    if c = '+' then
      if a.dropWhile (fun x => !(x = nlc)) = [] ∨
          a.dropWhile (fun x => !(x = nlc)) = [nlc] then
        some (a.takeWhile (fun x => !(x = nlc)))
      else none
    else none

/-- The tail parser proper: skip the `\s*`, then the alternatives. -/
def parseTail (r : Str) : Option Str := parseTailAux (r.dropWhile isPyWs)

/-- Expect one literal character. -/
def expectChar (c : Char) (r : Str) : Option Str :=
  match r with
  | x :: rest => if x = c then some rest else none
  | [] => none

/-- The optional job-id group `(?:%(?P<jid>\w+))?`: either a `%` followed by a
non-empty word run, or nothing (the following `:` is checked by the caller). -/
def parseJid (r2 : Str) : Option (Str × Str) :=
  match r2 with
  | c :: r3 =>
    if c = '%' then
      if r3.takeWhile isWordChar = [] then none
      else some (r3.takeWhile isWordChar, r3.dropWhile isWordChar)
    else some ([], c :: r3)
  | [] => some ([], [])

/-- The part of `CRON_LINE_RE` after the optional job id: `:level:` and the
five recurrence fields with the optional `+ args` tail. -/
def parseRest (path tg j : Str) (r4 : Str) : Option CronInfo :=
  (expectChar ':' r4).bind fun r5 =>
    (expectChar ':' (parseLevel r5).2).bind fun r7 =>
      (parseFieldWs r7).bind fun p1 =>
        (parseFieldWs p1.2).bind fun p2 =>
          (parseFieldWs p2.2).bind fun p3 =>
            (parseFieldWs p3.2).bind fun p4 =>
              if p4.2.takeWhile isFieldChar = [] then none
              else
                (parseTail (p4.2.dropWhile isFieldChar)).map fun a =>
                  ⟨path, tg, j, (parseLevel r5).1, p1.1, p2.1, p3.1, p4.1,
                    p4.2.takeWhile isFieldChar, a⟩

/-- The part of `CRON_LINE_RE` after the leading `#\s*CRON@`: target, the
optional job id, and the rest of the line. -/
def recognizeAfterHash (path : Str) : Str → Option CronInfo
  | c1 :: c2 :: c3 :: c4 :: c5 :: r1 =>
    if c1 = 'C' ∧ c2 = 'R' ∧ c3 = 'O' ∧ c4 = 'N' ∧ c5 = '@' then
      (parseJid (r1.dropWhile isWordChar)).bind fun p =>
        parseRest path (r1.takeWhile isWordChar) p.1 p.2
    else none
  | _ => none

/-- `CronSpec.recognize_cron_line`: match `CRON_LINE_RE` against one line and
build the `CronSpec` data, or return nothing.  The regex is deterministic
because every repeated class is followed by a character it cannot contain, so
it is rendered as a maximal-munch parser. -/
def recognize_cron_line (path : Str) (line : Str) : Option CronInfo :=
  match line with
  | c0 :: r0 =>
    if c0 = '#' then recognizeAfterHash path (r0.dropWhile isPyWs)
    else none
  | [] => none

/-- Validity of a level field under the source regex: empty, or an optional
sign followed by at least one digit. -/
def validLevelB : Str → Bool
  | [] => true
  | c :: ds =>
    if c = '+' ∨ c = '-' then !ds.isEmpty && ds.all Char.isDigit
    else (c :: ds).all Char.isDigit

/-- A well-formed tag line assembled from components: `#`, leading
whitespace, `CRON@`, target, optional `%jid`, `:level:`, five recurrence
fields separated by whitespace, and a tail (whitespace, or whitespace
followed by `+` and the extra arguments). -/
def mkTagLine (ws0 target jid level mn w1 h w2 d w3 mo w4 dw tail : Str) :
    Str :=
  '#' :: (ws0 ++ (lc "CRON@" ++ (target ++
    ((if jid = [] then [] else '%' :: jid) ++
      (':' :: (level ++ (':' :: (mn ++ (w1 ++ (h ++ (w2 ++ (d ++ (w3 ++
        (mo ++ (w4 ++ (dw ++ tail))))))))))))))))

/-- `CronSpec.cron_fmt`: the five recurrence fields joined by blanks. -/
def cron_fmt (s : CronInfo) : Str :=
  pyJoin [' '] [s.min, s.hr, s.day, s.mon, s.dow]

/-- `CronSpec.cmd_str`: runner, target, single-quoted job id, source path,
then the stripped extra args when non-empty. -/
def cmd_str (s : CronInfo) (runner : Str) : Str :=
  let args := pyStrip s.args
  pyJoin [' ']
    ([runner, s.target, squote :: s.jid ++ [squote], s.path] ++
      (if args = [] then [] else [args]))

/-- `CronSpec.cron_line`: time format, a blank, then the command string. -/
def cron_line (s : CronInfo) (runner : Str) : Str :=
  cron_fmt s ++ ' ' :: cmd_str s runner

/-- Python `os.path.basename` on slash-separated paths. -/
def basename (p : Str) : Str := (pySplit '/' p).getLastD []

/-- `CronSpec.name`: base name of the source file, suffixed with `%jid` when
the job id is non-empty. -/
def specName (s : CronInfo) : Str :=
  if s.jid = [] then basename s.path else basename s.path ++ '%' :: s.jid

/-- `CronSpec.sort_key`. -/
def sort_key (s : CronInfo) : Str × Str × Str × Str :=
  ((if s.dow = lc "1-5" then lc "*" else s.dow), s.hr, s.min, specName s)

/-- `CronSpec.level`: `int(self.cron_info['level'] or '0')`. -/
def levelOf (s : CronInfo) : Int := if s.level = [] then 0 else pyInt s.level

/-- Truthiness of `set(cs).intersection(s)`. -/
def hasAnyOf (cs : Str) (s : Str) : Bool := s.any (fun c => cs.contains c)

/-- The `is_multi` test in `CronDir.generate`: intersection with the set of
the comma, dash, slash and star characters. -/
def is_multi (s : Str) : Bool := hasAnyOf (lc ",-/*") s

/-- The bucket `CronDir.generate` files a spec under: the if/elif/else chain. -/
def bucketOf (s : CronInfo) : Nat × Str :=
  if is_multi s.min || is_multi s.hr then (1, lc "More frequent than daily")
  else if !hasAnyOf (lc "12345-*") s.dow then (3, lc "Weekends")
  else if !hasAnyOf (lc "-*") s.day then (4, lc "Monthly")
  else (5, lc "Weekdays")

/-- The four bucket keys of `CronDir.generate`, in their numeric order. -/
def groupKeys : List (Nat × Str) :=
  [(1, lc "More frequent than daily"), (3, lc "Weekends"),
   (4, lc "Monthly"), (5, lc "Weekdays")]

/-- `CronDir.markers`: the begin/end marker lines for a target. -/
def markers (target : Str) : Str × Str :=
  (lc "# BEGIN cronrepo generated: " ++ target,
   lc "# END cronrepo generated: " ++ target)

/-- Python string `<` (lexicographic on code points). -/
def strLt : Str → Str → Bool
  | [], [] => false
  | [], _ :: _ => true
  | _ :: _, [] => false
  | a :: resta, b :: restb =>
    if a.toNat < b.toNat then true
    else if b.toNat < a.toNat then false
    else strLt resta restb

/-- Python tuple `<` on `CronSpec.sort_key` values. -/
def quadLt (x y : Str × Str × Str × Str) : Bool :=
  strLt x.1 y.1 ||
    (x.1 == y.1 && (strLt x.2.1 y.2.1 ||
      (x.2.1 == y.2.1 && (strLt x.2.2.1 y.2.2.1 ||
        (x.2.2.1 == y.2.2.1 && strLt x.2.2.2 y.2.2.2)))))

/-- Stable sort by a boolean strict-less test: an element is inserted after
every element not greater than it, which is the ordering contract of Python
`sorted` (stable, comparisons by `<` on the keys). -/
def insertBy (lt : α → α → Bool) (a : α) : List α → List α
  | [] => [a]
  | b :: bs => if lt a b then a :: b :: bs else b :: insertBy lt a bs

/-- Stable insertion sort modelling Python `sorted`. -/
def pySorted (lt : α → α → Bool) : List α → List α
  | [] => []
  | a :: rest => insertBy lt a (pySorted lt rest)

/-- `CronDir.generate`.  Specs are sorted stably by `sort_key`; the
`defaultdict` keyed by the four `(int, label)` pairs holds exactly the
non-empty buckets and `sorted(grouped.items())` lists them by their distinct
numeric components, i.e. in the fixed order of `groupKeys`. -/
def generate (specs : List CronInfo) (runner : Str) (target : Str) : Str :=
  let sortedSpecs :=
    pySorted (fun a b => quadLt (sort_key a) (sort_key b)) specs
  let items := groupKeys.filterMap (fun k =>
    let g := sortedSpecs.filter (fun s => bucketOf s == k)
    if g = [] then none else some (k, g))
  let ret := items.flatMap
    (fun kg => (lc "# " ++ kg.1.2) :: kg.2.map (fun s => cron_line s runner))
  joinNl ((markers target).1 :: (ret ++ [(markers target).2, []]))

/-- The trailing-empty-line pop in `CronDir.stripped_crontab`
(`if crontab_lines[-1] == '': crontab_lines.pop()`). -/
def popTrailingEmpty (ls : List Str) : List Str :=
  if ls.getLast? = some [] then ls.dropLast else ls

/-- The `try` block of `CronDir.stripped_crontab`: find the first occurrence
of each marker (`list.index`; a `ValueError` from either lookup skips the
whole block), and when the begin marker comes strictly first, remove the
delimited region and then every remaining line equal to either marker. -/
def stripMarkers (m1 m2 : Str) (ls : List Str) : List Str :=
  match ls.findIdx? (fun l => l == m1), ls.findIdx? (fun l => l == m2) with
  | some si, some ei =>
    if si < ei then
      ((if si = 0 then [] else ls.take si) ++ ls.drop (ei + 1)).filter
        (fun l => !(l == m1 || l == m2))
    else ls
  | _, _ => ls

/-- `CronDir.stripped_crontab` as a function of the decoded `crontab -l`
output `T`: strip whitespace, split into lines, pop a trailing empty line,
strip a previously generated block, append an empty line and re-join. -/
def stripped_crontab (target : Str) (T : Str) : Str :=
  let ls := popTrailingEmpty (splitNl (pyStrip T))
  joinNl (stripMarkers (markers target).1 (markers target).2 ls ++ [[]])

/-- The text computation of `CronDir.install`: strip the old block, make sure
the text ends with a newline, then append the generated block `blk`. -/
def installText (target : Str) (T : Str) (blk : Str) : Str :=
  (if (stripped_crontab target T).getLast? = some nlc
   then stripped_crontab target T
   else stripped_crontab target T ++ [nlc]) ++ blk

/-- The externally visible state an install/uninstall acts on: the OS job
table and the per-host runner (trampoline) file. -/
structure Sys where
  crontab : Str
  runner : Option Str
deriving DecidableEq

/-- The outcome of an install/uninstall action: whether it completed, the
external state it left behind, and the text handed to the replace command
(`crontab -`), when that point was reached. -/
structure ActionResult where
  ok : Bool
  sys : Sys
  handed : Option Str
deriving DecidableEq

/-- `CronDir.install`: generate the block, read and strip the current table
(`crontab -l`, `check=True`: a non-zero exit aborts, modelled by `readOk`),
append the block, write the runner file, then replace the table
(`crontab -`, `check=True`, modelled by `replaceOk`). -/
def install (readOk replaceOk : Bool) (specs : List CronInfo)
    (runnerPath target runnerContent : Str) (sys : Sys) : ActionResult :=
  let blk := generate specs runnerPath target
  if readOk then
    let tab := installText target sys.crontab blk
    let sys1 : Sys := { sys with runner := some runnerContent }
    if replaceOk then ⟨true, { sys1 with crontab := tab }, some tab⟩
    else ⟨false, sys1, some tab⟩
  else ⟨false, sys, none⟩

/-- `os.remove` on the runner file: fails with `FileNotFoundError` when the
file is absent. -/
def osRemove (sys : Sys) : Option Sys :=
  match sys.runner with
  | some _ => some { sys with runner := none }
  | none => none

/-- `CronDir.uninstall`: read and strip the table, remove the runner file
with `FileNotFoundError` caught (`except FileNotFoundError: pass`), then
install the stripped text.  No block and no markers are appended. -/
def uninstall (readOk replaceOk : Bool) (target : Str) (sys : Sys) :
    ActionResult :=
  if readOk then
    let tab := stripped_crontab target sys.crontab
    let sys1 := match osRemove sys with
      | some s => s
      | none => sys
    if replaceOk then ⟨true, { sys1 with crontab := tab }, some tab⟩
    else ⟨false, sys1, some tab⟩
  else ⟨false, sys, none⟩

/-- Whether `stripped_crontab` finds the begin marker strictly before the end
marker, i.e. whether the `try` block of the source actually strips. -/
def stripHappens (m1 m2 : Str) (ls : List Str) : Bool :=
  match ls.findIdx? (fun l => l == m1), ls.findIdx? (fun l => l == m2) with
  | some si, some ei => si < ei
  | _, _ => false

/-- The lines `stripped_crontab` keeps: the split, popped, marker-stripped
line list of the current table. -/
def remnantLines (target : Str) (T : Str) : List Str :=
  stripMarkers (markers target).1 (markers target).2
    (popTrailingEmpty (splitNl (pyStrip T)))

/-- The line list of a generated block: begin marker, payload lines, end
marker (the final empty string of `generate` only produces the trailing
newline). -/
def blockLines (target : Str) (inner : List Str) : List Str :=
  (markers target).1 :: (inner ++ [(markers target).2])

/-- The full text of a generated block with payload lines `inner`. -/
def blockText (target : Str) (inner : List Str) : Str :=
  joinNl ((markers target).1 :: (inner ++ [(markers target).2, []]))

/-- Whether the first remaining line is absent or starts with a
non-whitespace character (so that a re-read of the table does not strip into
it). -/
def headCleanB (ls : List Str) : Bool :=
  match ls with
  | [] => true
  | l :: _ =>
    match l with
    | [] => false
    | c :: _ => !isPyWs c

/-- A paused per-spec generator in the `heapq.merge` of `CronDir.list_inv`:
the invocation time it is paused at, the invocation id assigned by
`enumerate`, and the spec it generates for.  Times are modelled as `Nat`
(datetimes are totally ordered; only the order matters here). -/
structure Cur (α : Type) where
  val : Nat
  iid : Nat
  sp : α
deriving DecidableEq

/-- The merge key `CronInv.key`: `(self.dt, self.iid)`. -/
def curKey {α : Type} (c : Cur α) : Nat × Nat := (c.val, c.iid)

/-- Strict lexicographic order on merge keys. -/
def keyLt (x y : Nat × Nat) : Prop := x.1 < y.1 ∨ (x.1 = y.1 ∧ x.2 < y.2)

instance keyLtDec (x y : Nat × Nat) : Decidable (keyLt x y) := by
  unfold keyLt; infer_instance

/-- Boolean form of `keyLt`. -/
def keyLtB (x y : Nat × Nat) : Bool := x.1 < y.1 || (x.1 == y.1 && x.2 < y.2)

/-- Of two cursors, the one the heap pops first. -/
def betterCur {α : Type} (a b : Cur α) : Cur α :=
  if keyLtB (curKey b) (curKey a) then b else a

/-- The minimum-key cursor: what `heapq.merge` pops next (all keys are
distinct because the invocation ids are distinct). -/
def pickMin {α : Type} : List (Cur α) → Option (Cur α)
  | [] => none
  | c :: cs => some (cs.foldl betterCur c)

/-- Advance the generator that produced the popped cursor: `gen_inv` asks
croniter for the next fire time strictly after the current one. -/
def advance {α : Type} (next : α → Nat → Nat) (m : Cur α)
    (cs : List (Cur α)) : List (Cur α) :=
  cs.map (fun c => if c.iid = m.iid then ⟨next m.sp m.val, m.iid, m.sp⟩ else c)

/-- The `for cron_inv in heapq.merge(...)` loop of `CronDir.list_inv` with
its `if cron_inv.dt > end: break` guard, on explicit cursors with fuel. -/
def mergeRun {α : Type} (next : α → Nat → Nat) (endT : Nat) :
    Nat → List (Cur α) → List (Nat × Nat)
  | 0, _ => []
  | fuel + 1, cs =>
    match pickMin cs with
    | none => []
    | some m =>
      if endT < m.val then []
      else (m.val, m.iid) :: mergeRun next endT fuel (advance next m cs)

/-- The level filter of `CronDir.list_inv`:
`[spec for spec in ... if spec.level() >= min_level]`. -/
def levelFiltered (minLevel : Int) (specs : List CronInfo) : List CronInfo :=
  specs.filter (fun s => minLevel ≤ levelOf s)

/-- The initial generators: `enumerate` assigns invocation ids in list
order, and each `gen_inv` starts by asking croniter for the first fire time
after `start`. -/
def initCursors (next : CronInfo → Nat → Nat) (start : Nat)
    (specs : List CronInfo) : List (Cur CronInfo) :=
  specs.enum.map (fun p => ⟨next p.2 start, p.1, p.2⟩)

/-- Enough fuel for the run to reach its break: each emission strictly
advances one cursor and nothing later than `endT` is emitted. -/
def mergeFuel (k endT : Nat) : Nat := k * (endT + 1) + 1

/-- `CronDir.list_inv` over an abstract croniter `next` and `Nat` times:
the emitted `(fire time, invocation id)` pairs. -/
def list_inv (next : CronInfo → Nat → Nat) (specs : List CronInfo)
    (start endT : Nat) (minLevel : Int) : List (Nat × Nat) :=
  mergeRun next endT
    (mergeFuel (levelFiltered minLevel specs).length endT)
    (initCursors next start (levelFiltered minLevel specs))

/-- The invocation ids of a cursor list. -/
def iids {α : Type} (cs : List (Cur α)) : List Nat := cs.map (fun c => c.iid)

/-- Fuel measure: the total remaining slack of all cursors. -/
def cursorsSlack {α : Type} (endT : Nat) (cs : List (Cur α)) : Nat :=
  (cs.map (fun c => endT + 1 - c.val)).sum

/-- The values of the invocation stream of one generator paused at `v`. -/
def streamVal {α : Type} (next : α → Nat → Nat) (sp : α) (v : Nat) : Nat → Nat
  | 0 => v
  | n + 1 => next sp (streamVal next sp v n)

/-- The n-th fire time of one spec starting from `start`: `gen_inv` yields
`next start`, `next (next start)`, and so on. -/
def fireTime (next : CronInfo → Nat → Nat) (sp : CronInfo) (start : Nat)
    (n : Nat) : Nat :=
  streamVal next sp (next sp start) n

/-! Helper lemmas about the text model. -/

theorem takeWhile_append_all {p : Char → Bool} {A B : Str}
    (hA : ∀ x ∈ A, p x = true) (hB : ∀ b ∈ B.head?, p b = false) :
    (A ++ B).takeWhile p = A := by
  induction A with
  | nil =>
    cases B with
    | nil => rfl
    | cons b bs => simp [List.takeWhile_cons, hB b rfl]
  | cons a A ih =>
    have ha := hA a (by simp)
    simp only [List.cons_append, List.takeWhile_cons, ha, if_true]
    rw [ih (fun x hx => hA x (by simp [hx]))]

theorem dropWhile_append_all {p : Char → Bool} {A B : Str}
    (hA : ∀ x ∈ A, p x = true) (hB : ∀ b ∈ B.head?, p b = false) :
    (A ++ B).dropWhile p = B := by
  induction A with
  | nil =>
    cases B with
    | nil => rfl
    | cons b bs => simp [List.dropWhile_cons, hB b rfl]
  | cons a A ih =>
    have ha := hA a (by simp)
    simp only [List.cons_append, List.dropWhile_cons, ha, if_true]
    exact ih (fun x hx => hA x (by simp [hx]))

theorem dropWhile_eq_self_of_head {p : Char → Bool} {s : Str}
    (h : ∀ c ∈ s.head?, p c = false) : s.dropWhile p = s := by
  cases s with
  | nil => rfl
  | cons c cs => simp [List.dropWhile_cons, h c rfl]

theorem head?_dropWhile_false {p : Char → Bool} :
    ∀ {s : Str} {c : Char}, (s.dropWhile p).head? = some c → p c = false := by
  intro s
  induction s with
  | nil => intro c h; simp at h
  | cons a as ih =>
    intro c h
    rw [List.dropWhile_cons] at h
    by_cases ha : p a
    · rw [if_pos ha] at h; exact ih h
    · rw [if_neg ha] at h
      simp only [List.head?_cons, Option.some.injEq] at h
      subst h
      exact Bool.eq_false_iff.mpr ha

theorem pySplit_cons (sep c : Char) (s : Str) :
    pySplit sep (c :: s) =
      if c = sep then [] :: pySplit sep s
      else
        match pySplit sep s with
        | [] => [[c]]
        | l :: ls => (c :: l) :: ls := rfl

theorem pySplit_ne_nil (sep : Char) (s : Str) : pySplit sep s ≠ [] := by
  induction s with
  | nil => simp [pySplit]
  | cons c cs ih =>
    by_cases hc : c = sep
    · simp [pySplit_cons, hc]
    · rw [pySplit_cons, if_neg hc]
      cases h : pySplit sep cs with
      | nil => simp
      | cons l ls => simp

theorem mem_pySplit_not_sep (sep : Char) (s : Str) :
    ∀ l ∈ pySplit sep s, sep ∉ l := by
  induction s with
  | nil =>
    intro l hl
    simp only [pySplit, List.mem_singleton] at hl
    simp [hl]
  | cons c cs ih =>
    intro l hl
    by_cases hc : c = sep
    · rw [pySplit_cons, if_pos hc] at hl
      rcases List.mem_cons.mp hl with h | h
      · simp [h]
      · exact ih l h
    · rw [pySplit_cons, if_neg hc] at hl
      cases h : pySplit sep cs with
      | nil => exact absurd h (pySplit_ne_nil sep cs)
      | cons t ts =>
        rw [h] at hl
        rcases List.mem_cons.mp hl with h2 | h2
        · subst h2
          intro hmem
          rcases List.mem_cons.mp hmem with h3 | h3
          · exact hc h3.symm
          · exact ih t (by rw [h]; simp) h3
        · exact ih l (by rw [h]; exact List.mem_cons_of_mem _ h2)

theorem pyJoin_cons (sep : Str) (l : Str) (ls : List Str) (h : ls ≠ []) :
    pyJoin sep (l :: ls) = l ++ sep ++ pyJoin sep ls := by
  cases ls with
  | nil => exact absurd rfl h
  | cons t ts => rfl

theorem pyJoin_append (sep : Str) (A B : List Str) (hA : A ≠ []) (hB : B ≠ []) :
    pyJoin sep (A ++ B) = pyJoin sep A ++ sep ++ pyJoin sep B := by
  induction A with
  | nil => exact absurd rfl hA
  | cons a A2 ih =>
    cases A2 with
    | nil =>
      rw [show ([a] ++ B) = a :: B by simp, pyJoin_cons sep a B hB]
      rfl
    | cons b A3 =>
      rw [show ((a :: b :: A3) ++ B) = a :: ((b :: A3) ++ B) by simp]
      rw [pyJoin_cons _ _ _ (by simp)]
      rw [ih (by simp)]
      rw [pyJoin_cons sep a (b :: A3) (by simp)]
      simp [List.append_assoc]

theorem joinNl_pySplit (sep : Char) (s : Str) :
    pyJoin [sep] (pySplit sep s) = s := by
  induction s with
  | nil => rfl
  | cons c cs ih =>
    by_cases hc : c = sep
    · rw [pySplit_cons, if_pos hc]
      rw [pyJoin_cons _ _ _ (pySplit_ne_nil sep cs), ih, hc]
      simp
    · rw [pySplit_cons, if_neg hc]
      cases h : pySplit sep cs with
      | nil => exact absurd h (pySplit_ne_nil sep cs)
      | cons t ts =>
        rw [h] at ih
        cases ts with
        | nil =>
          simp only [pyJoin] at ih ⊢
          rw [ih]
        | cons u us =>
          rw [pyJoin_cons _ _ _ (by simp)] at ih
          rw [pyJoin_cons _ _ _ (by simp)]
          rw [List.cons_append, List.cons_append, ih]

theorem joinNl_splitNl (s : Str) : joinNl (splitNl s) = s :=
  joinNl_pySplit nlc s

theorem splitNl_append_cons (l : Str) (h : nlc ∉ l) (r : Str) :
    splitNl (l ++ nlc :: r) = l :: splitNl r := by
  induction l with
  | nil => simp [splitNl, pySplit_cons]
  | cons c cs ih =>
    have hc : ¬ c = nlc := fun he => h (by simp [he])
    have ih2 := ih (fun hm => h (by simp [hm]))
    rw [List.cons_append]
    unfold splitNl at ih2 ⊢
    rw [pySplit_cons, if_neg hc, ih2]

theorem splitNl_no_nl (s : Str) (h : nlc ∉ s) : splitNl s = [s] := by
  induction s with
  | nil => rfl
  | cons c cs ih =>
    have hc : ¬ c = nlc := fun he => h (by simp [he])
    have ih2 := ih (fun hm => h (by simp [hm]))
    unfold splitNl at ih2 ⊢
    rw [pySplit_cons, if_neg hc, ih2]

theorem splitNl_joinNl (L : List Str) (hne : L ≠ []) (h : ∀ l ∈ L, nlc ∉ l) :
    splitNl (joinNl L) = L := by
  induction L with
  | nil => exact absurd rfl hne
  | cons l ls ih =>
    cases ls with
    | nil => exact splitNl_no_nl l (h l (by simp))
    | cons t ts =>
      have hj : joinNl (l :: t :: ts) = l ++ nlc :: joinNl (t :: ts) := by
        unfold joinNl
        rw [pyJoin_cons _ _ _ (by simp)]
        simp
      rw [hj, splitNl_append_cons l (h l (by simp))]
      rw [ih (by simp) (fun x hx => h x (by simp [hx]))]

theorem mem_splitNl_not_nl (s : Str) : ∀ l ∈ splitNl s, nlc ∉ l :=
  mem_pySplit_not_sep nlc s

theorem splitNl_getLast_ne_nil :
    ∀ {s : Str}, s ≠ [] → s.getLast? ≠ some nlc →
      (splitNl s).getLast? ≠ some [] := by
  intro s
  induction s with
  | nil => intro h; exact absurd rfl h
  | cons c cs ih =>
    intro _ hlast
    cases hcs : cs with
    | nil =>
      subst hcs
      have hc : ¬ c = nlc := by
        intro he
        exact hlast (by simp [List.getLast?, he])
      unfold splitNl
      rw [pySplit_cons, if_neg hc]
      simp [pySplit]
    | cons d ds =>
      subst hcs
      have hlast2 : (d :: ds).getLast? ≠ some nlc := by
        rwa [List.getLast?_cons_cons] at hlast
      have ihr := ih (by simp) hlast2
      by_cases hc : c = nlc
      · unfold splitNl at ihr ⊢
        rw [pySplit_cons, if_pos hc]
        cases hsp : pySplit nlc (d :: ds) with
        | nil => exact absurd hsp (pySplit_ne_nil _ _)
        | cons t ts =>
          rw [hsp] at ihr
          simpa [List.getLast?_cons_cons] using ihr
      · unfold splitNl at ihr ⊢
        rw [pySplit_cons, if_neg hc]
        cases hsp : pySplit nlc (d :: ds) with
        | nil => exact absurd hsp (pySplit_ne_nil _ _)
        | cons t ts =>
          rw [hsp] at ihr
          cases ts with
          | nil => simp
          | cons u us =>
            simpa [List.getLast?_cons_cons] using ihr

theorem popTrailingEmpty_eq_self {ls : List Str} (h : ls.getLast? ≠ some []) :
    popTrailingEmpty ls = ls := by
  unfold popTrailingEmpty
  rw [if_neg h]

theorem splitNl_ne_nil (s : Str) : splitNl s ≠ [] := pySplit_ne_nil nlc s

theorem getLast?_dropWhile {p : Char → Bool} :
    ∀ {s : Str}, s.dropWhile p ≠ [] → (s.dropWhile p).getLast? = s.getLast? := by
  intro s
  induction s with
  | nil => intro h; exact absurd rfl h
  | cons a as ih =>
    intro hne
    by_cases ha : p a
    · rw [List.dropWhile_cons, if_pos ha] at hne ⊢
      rw [ih hne]
      cases has : as with
      | nil =>
        rw [has] at hne
        exact absurd rfl hne
      | cons b bs => rw [List.getLast?_cons_cons]
    · rw [List.dropWhile_cons, if_neg ha]

theorem pyStrip_getLast_not_ws {s : Str} {c : Char}
    (h : (pyStrip s).getLast? = some c) : isPyWs c = false := by
  unfold pyStrip at h
  rw [List.getLast?_reverse] at h
  exact head?_dropWhile_false h

theorem pyStrip_head_not_ws {s : Str} {c : Char}
    (h : (pyStrip s).head? = some c) : isPyWs c = false := by
  unfold pyStrip at h
  rw [List.head?_reverse] at h
  have hne : (s.dropWhile isPyWs).reverse.dropWhile isPyWs ≠ [] := by
    intro he
    rw [he] at h
    simp at h
  rw [getLast?_dropWhile hne, List.getLast?_reverse] at h
  exact head?_dropWhile_false h

theorem pyStrip_cons_ws {c : Char} (hc : isPyWs c = true) (s : Str) :
    pyStrip (c :: s) = pyStrip s := by
  unfold pyStrip
  rw [List.dropWhile_cons, if_pos hc]

theorem pyStrip_concat_nl {X : Str}
    (h1 : ∀ c ∈ X.head?, isPyWs c = false)
    (h2 : ∀ c ∈ X.getLast?, isPyWs c = false) :
    pyStrip (X ++ [nlc]) = X := by
  cases X with
  | nil => decide
  | cons a X' =>
    have ha : isPyWs a = false := h1 a rfl
    unfold pyStrip
    rw [List.cons_append, List.dropWhile_cons, ha]
    simp only [Bool.false_eq_true, if_false]
    rw [show (a :: (X' ++ [nlc])).reverse = nlc :: (a :: X').reverse by simp]
    rw [List.dropWhile_cons, show isPyWs nlc = true from by decide]
    simp only [if_true]
    rw [dropWhile_eq_self_of_head ?hh, List.reverse_reverse]
    case hh =>
      intro c hc
      rw [List.head?_reverse] at hc
      exact h2 c hc

/-! The marker-strip and merge lemmas. -/

theorem stripMarkers_noop {m1 m2 : Str} {ls : List Str}
    (h : stripHappens m1 m2 ls = false) : stripMarkers m1 m2 ls = ls := by
  unfold stripHappens at h
  unfold stripMarkers
  cases h1 : ls.findIdx? (fun l => l == m1) with
  | none => rfl
  | some si =>
    cases h2 : ls.findIdx? (fun l => l == m2) with
    | none => rfl
    | some ei =>
      rw [h1, h2] at h
      simp only [decide_eq_false_iff_not] at h
      simp [h]

theorem stripMarkers_strip {m1 m2 : Str} {ls : List Str} {si ei : Nat}
    (h1 : ls.findIdx? (fun l => l == m1) = some si)
    (h2 : ls.findIdx? (fun l => l == m2) = some ei)
    (hlt : si < ei) :
    stripMarkers m1 m2 ls =
      (ls.take si ++ ls.drop (ei + 1)).filter
        (fun l => !(l == m1 || l == m2)) := by
  simp only [stripMarkers, h1, h2]
  rw [if_pos hlt]
  by_cases h0 : si = 0
  · subst h0; simp
  · rw [if_neg h0]

theorem stripped_crontab_eq (target T : Str) :
    stripped_crontab target T = joinNl (remnantLines target T ++ [[]]) := rfl

theorem joinNl_concat_nil (L : List Str) (h : L ≠ []) :
    joinNl (L ++ [[]]) = joinNl L ++ [nlc] := by
  unfold joinNl
  rw [pyJoin_append [nlc] L [[]] h (by simp)]
  simp [pyJoin]

theorem installText_of_remnant (target T blk : Str) :
    installText target T blk =
      (if remnantLines target T = [] then [nlc]
       else joinNl (remnantLines target T) ++ [nlc]) ++ blk := by
  unfold installText
  rw [stripped_crontab_eq]
  by_cases h : remnantLines target T = []
  · rw [h, if_pos rfl]
    simp [joinNl, pyJoin]
  · rw [joinNl_concat_nil _ h, if_neg h]
    rw [if_pos (by rw [List.getLast?_concat])]

/-- C4 counterexample: on the markerless table text `x<blank><newline>` the
merge does not leave the pre-append portion byte-identical: the trailing
blank of the last line is eaten by the whitespace strip of the read step, so
the output is `x<newline>` plus the block rather than `x<blank><newline>`
plus the block. -/
theorem merge_tolerance_cex :
    installText (lc "t") (lc "x \n") (generate [] (lc "R") (lc "t")) ≠
      lc "x \n" ++ generate [] (lc "R") (lc "t") ∧
    installText (lc "t") (lc "x \n") (generate [] (lc "R") (lc "t")) =
      lc "x\n" ++ generate [] (lc "R") (lc "t") := by
  constructor
  · decide
  · decide

/-- C4 (amended): whenever the begin marker is not found strictly before the
end marker (both markers absent, only one present, or end before begin), the
merge performs no strip at all: the output is exactly the whitespace-stripped
current table, a newline, and the new block, so every line of the (stripped)
table survives byte-for-byte. -/
theorem merge_tolerance (target T blk : Str)
    (h : stripHappens (markers target).1 (markers target).2
        (popTrailingEmpty (splitNl (pyStrip T))) = false) :
    installText target T blk = pyStrip T ++ nlc :: blk := by
  rw [installText_of_remnant]
  by_cases hT : pyStrip T = []
  · have hrem : remnantLines target T = [] := by
      unfold remnantLines
      rw [hT]
      rw [show splitNl ([] : Str) = [[]] from rfl]
      rw [show popTrailingEmpty [([] : Str)] = [] from rfl]
      rfl
    rw [if_pos hrem, hT]
    simp
  · have hlast : (pyStrip T).getLast? ≠ some nlc := by
      intro he
      have := pyStrip_getLast_not_ws he
      simp [isPyWs, nlc] at this
    have hpop : popTrailingEmpty (splitNl (pyStrip T)) = splitNl (pyStrip T) :=
      popTrailingEmpty_eq_self (splitNl_getLast_ne_nil hT hlast)
    have hrem : remnantLines target T = splitNl (pyStrip T) := by
      unfold remnantLines
      rw [hpop]
      exact stripMarkers_noop (by rwa [hpop] at h)
    rw [hrem, if_neg (splitNl_ne_nil _), joinNl_splitNl]
    simp [List.append_assoc]

/-- C4 witness: the amended tolerance property at a concrete table that
contains the end marker before the begin marker. -/
theorem merge_tolerance_witness :
    (stripHappens (markers (lc "t")).1 (markers (lc "t")).2
        (popTrailingEmpty (splitNl (pyStrip
          (lc "# END cronrepo generated: t\n# BEGIN cronrepo generated: t\nx"))))
      = false) ∧
    installText (lc "t")
        (lc "# END cronrepo generated: t\n# BEGIN cronrepo generated: t\nx")
        (lc "B\n") =
      pyStrip (lc "# END cronrepo generated: t\n# BEGIN cronrepo generated: t\nx")
        ++ nlc :: lc "B\n" :=
  ⟨by decide,
    merge_tolerance (lc "t")
      (lc "# END cronrepo generated: t\n# BEGIN cronrepo generated: t\nx")
      (lc "B\n") (by decide)⟩

/-! Cron line rendering: the general shape of `cron_line`. -/

theorem cron_line_eq (s : CronInfo) (runner : Str) :
    cron_line s runner =
      s.min ++ ' ' :: s.hr ++ ' ' :: s.day ++ ' ' :: s.mon ++ ' ' :: s.dow ++
      ' ' :: runner ++ ' ' :: s.target ++ ' ' :: squote :: s.jid ++ squote ::
      ' ' :: s.path ++
      (if pyStrip s.args = [] then [] else ' ' :: pyStrip s.args) := by
  unfold cron_line cron_fmt cmd_str
  by_cases h : pyStrip s.args = [] <;> simp [h, pyJoin]

/-- C7: for every descriptor and runner path the rendered job line is exactly
the five recurrence fields, the runner path, the target, the always
single-quoted job id, the source path, and the trimmed extra args only when
non-empty; and the scenario line `# CRON@t1::02 18 * * 1-5` renders to
`02 18 * * 1-5 RUN t1 <quote><quote> x/y/foo`. -/
theorem cron_line_format :
    (∀ (s : CronInfo) (runner : Str),
      cron_line s runner =
        s.min ++ ' ' :: s.hr ++ ' ' :: s.day ++ ' ' :: s.mon ++ ' ' :: s.dow ++
        ' ' :: runner ++ ' ' :: s.target ++ ' ' :: squote :: s.jid ++ squote ::
        ' ' :: s.path ++
        (if pyStrip s.args = [] then [] else ' ' :: pyStrip s.args)) ∧
    (recognize_cron_line (lc "x/y/foo") (lc "# CRON@t1::02 18 * * 1-5")).map
        (fun i => cron_line i (lc "RUN")) =
      some (lc "02 18 * * 1-5 RUN t1 " ++ squote :: squote :: lc " x/y/foo") := by
  exact ⟨cron_line_eq, by decide⟩

/-- C3: every descriptor lands in exactly one of the four buckets, assigned
by the first-matching-rule priority of `CronDir.generate`, and the four
bucket keys carry strictly increasing numeric components 1, 3, 4, 5, the
order in which `sorted(grouped.items())` renders them. -/
theorem classifier_buckets :
    (∀ s : CronInfo,
      (bucketOf s = (1, lc "More frequent than daily") ↔
        (is_multi s.min || is_multi s.hr) = true) ∧
      (bucketOf s = (3, lc "Weekends") ↔
        ((is_multi s.min || is_multi s.hr) = false ∧
         hasAnyOf (lc "12345-*") s.dow = false)) ∧
      (bucketOf s = (4, lc "Monthly") ↔
        ((is_multi s.min || is_multi s.hr) = false ∧
         hasAnyOf (lc "12345-*") s.dow = true ∧
         hasAnyOf (lc "-*") s.day = false)) ∧
      (bucketOf s = (5, lc "Weekdays") ↔
        ((is_multi s.min || is_multi s.hr) = false ∧
         hasAnyOf (lc "12345-*") s.dow = true ∧
         hasAnyOf (lc "-*") s.day = true))) ∧
    List.Pairwise (fun a b => a.1 < b.1) groupKeys := by
  constructor
  · intro s
    unfold bucketOf
    cases hA : is_multi s.min || is_multi s.hr <;>
      cases hB : hasAnyOf (lc "12345-*") s.dow <;>
        cases hC : hasAnyOf (lc "-*") s.day <;>
          refine ⟨?_, ?_, ?_, ?_⟩ <;>
            simp (disch := decide) only [hA, hB, hC, Bool.not_true,
              Bool.not_false, if_true, if_false, Prod.mk.injEq] <;>
              simp
  · decide

/-- C5: an install either computes the full new table text and hands exactly
that text to the table-replace command, or writes nothing: when the replace
command fails the table is unchanged and the action reports failure; when the
read command fails nothing at all has happened; on success the table holds
exactly the full merged text. -/
theorem install_all_or_nothing :
    ∀ (readOk : Bool) (specs : List CronInfo) (rp tg rc : Str) (sys : Sys),
      (install readOk false specs rp tg rc sys).ok = false ∧
      (install readOk false specs rp tg rc sys).sys.crontab = sys.crontab ∧
      ((install readOk false specs rp tg rc sys).handed = none ∨
        (install readOk false specs rp tg rc sys).handed =
          some (installText tg sys.crontab (generate specs rp tg))) ∧
      (install false true specs rp tg rc sys).sys = sys ∧
      (install true true specs rp tg rc sys).sys.crontab =
        installText tg sys.crontab (generate specs rp tg) ∧
      (install true true specs rp tg rc sys).handed =
        some (installText tg sys.crontab (generate specs rp tg)) := by
  intro readOk specs rp tg rc sys
  cases readOk <;> simp [install]

/-- C9 counterexample: on a table holding a previously generated block, the
uninstall action does not produce the text that the merge operation yields
for a markers-only block (uninstall appends nothing, not even the markers). -/
theorem uninstall_markers_cex :
    (uninstall true true (lc "t")
        { crontab := lc
            "# hello\n# BEGIN cronrepo generated: t\njob\n# END cronrepo generated: t\n",
          runner := some (lc "r") }).sys.crontab ≠
      installText (lc "t")
        (lc "# hello\n# BEGIN cronrepo generated: t\njob\n# END cronrepo generated: t\n")
        (generate [] (lc "R") (lc "t")) := by decide

/-- C9 (amended): uninstall produces exactly the marker-stripped table text,
with no block appended, hands exactly that text to the replace command, and
removes the trampoline file; a missing trampoline file is tolerated (the
theorem holds whether `sys.runner` is present or absent) and the action still
completes. -/
theorem uninstall_strips :
    ∀ (target : Str) (sys : Sys),
      (uninstall true true target sys).ok = true ∧
      (uninstall true true target sys).sys.crontab =
        stripped_crontab target sys.crontab ∧
      (uninstall true true target sys).sys.runner = none ∧
      (uninstall true true target sys).handed =
        some (stripped_crontab target sys.crontab) := by
  intro target sys
  cases h : sys.runner <;> simp [uninstall, osRemove, h]

/-- C10: when the begin marker occurs strictly before the end marker, the
strip step removes the delimited region and every other line equal to either
marker, and keeps every other line unchanged in its original order (the
result is a sublist of the input containing no marker line). -/
theorem strip_frame (m1 m2 : Str) (ls : List Str) (si ei : Nat)
    (h1 : ls.findIdx? (fun l => l == m1) = some si)
    (h2 : ls.findIdx? (fun l => l == m2) = some ei)
    (hlt : si < ei) :
    stripMarkers m1 m2 ls =
      (ls.take si ++ ls.drop (ei + 1)).filter (fun l => !(l == m1 || l == m2))
    ∧ (stripMarkers m1 m2 ls).Sublist ls
    ∧ ∀ l ∈ stripMarkers m1 m2 ls, l ≠ m1 ∧ l ≠ m2 := by
  have heq := stripMarkers_strip h1 h2 hlt
  refine ⟨heq, ?_, ?_⟩
  · rw [heq]
    refine List.Sublist.trans (List.filter_sublist _) ?_
    have hdd : ls.drop (ei + 1) = (ls.drop si).drop (ei + 1 - si) := by
      rw [List.drop_drop]
      congr 1
      omega
    have hsub : List.Sublist (ls.take si ++ ls.drop (ei + 1))
        (ls.take si ++ ls.drop si) := by
      apply List.Sublist.append_left
      rw [hdd]
      exact List.drop_sublist _ _
    simpa [List.take_append_drop] using hsub
  · intro l hl
    rw [heq] at hl
    have hkeep := (List.mem_filter.mp hl).2
    constructor
    · intro he; subst he; simp at hkeep
    · intro he; subst he; simp at hkeep

/-- C10 witness: the frame property at a concrete table with a duplicated
begin-marker line after the delimited region. -/
theorem strip_frame_witness :
    ([lc "a", lc "M1", lc "b", lc "M2", lc "M1", lc "c"].findIdx?
        (fun l => l == lc "M1") = some 1) ∧
    ([lc "a", lc "M1", lc "b", lc "M2", lc "M1", lc "c"].findIdx?
        (fun l => l == lc "M2") = some 3) ∧
    (1 < 3) ∧
    (stripMarkers (lc "M1") (lc "M2")
        [lc "a", lc "M1", lc "b", lc "M2", lc "M1", lc "c"] =
      ([lc "a", lc "M1", lc "b", lc "M2", lc "M1", lc "c"].take 1 ++
        [lc "a", lc "M1", lc "b", lc "M2", lc "M1", lc "c"].drop 4).filter
          (fun l => !(l == lc "M1" || l == lc "M2"))
    ∧ (stripMarkers (lc "M1") (lc "M2")
        [lc "a", lc "M1", lc "b", lc "M2", lc "M1", lc "c"]).Sublist
        [lc "a", lc "M1", lc "b", lc "M2", lc "M1", lc "c"]
    ∧ ∀ l ∈ stripMarkers (lc "M1") (lc "M2")
        [lc "a", lc "M1", lc "b", lc "M2", lc "M1", lc "c"],
        l ≠ lc "M1" ∧ l ≠ lc "M2") :=
  ⟨by decide, by decide, by decide,
    strip_frame (lc "M1") (lc "M2")
      [lc "a", lc "M1", lc "b", lc "M2", lc "M1", lc "c"] 1 3
      (by decide) (by decide) (by decide)⟩

/-! Idempotence of the block merge. -/

theorem word_not_ws {c : Char} (h : isWordChar c = true) : isPyWs c = false := by
  by_contra hne
  have hws : isPyWs c = true := by
    cases hb : isPyWs c
    · exact absurd hb hne
    · rfl
  simp only [isPyWs, Bool.or_eq_true, decide_eq_true_eq] at hws
  rcases hws with ((((h1 | h1) | h1) | h1) | h1) | h1 <;> subst h1 <;>
    exact absurd h (by decide)

theorem findIdx?_append_none {p : Str → Bool} {A : List Str} (B : List Str)
    (i : Nat) (hA : ∀ x ∈ A, p x = false) :
    List.findIdx? p (A ++ B) i = List.findIdx? p B (i + A.length) := by
  induction A generalizing i with
  | nil => simp
  | cons a A ih =>
    rw [List.cons_append, List.findIdx?_cons,
      if_neg (by simp [hA a (by simp)])]
    rw [ih _ (fun x hx => hA x (by simp [hx]))]
    congr 1
    simp
    omega

theorem mem_stripMarkers_subset {m1 m2 : Str} {ls : List Str} {l : Str}
    (h : l ∈ stripMarkers m1 m2 ls) : l ∈ ls := by
  cases h1 : ls.findIdx? (fun x => x == m1) with
  | none =>
    simp only [stripMarkers, h1] at h
    exact h
  | some si =>
    cases h2 : ls.findIdx? (fun x => x == m2) with
    | none =>
      simp only [stripMarkers, h1, h2] at h
      exact h
    | some ei =>
      simp only [stripMarkers, h1, h2] at h
      by_cases hlt : si < ei
      · rw [if_pos hlt] at h
        have hm := List.mem_of_mem_filter h
        rcases List.mem_append.mp hm with hm2 | hm2
        · by_cases h0 : si = 0
          · rw [if_pos h0] at hm2; simp at hm2
          · rw [if_neg h0] at hm2
            exact List.mem_of_mem_take hm2
        · exact List.mem_of_mem_drop hm2
      · rw [if_neg hlt] at h; exact h

theorem mem_popTrailingEmpty_subset {ls : List Str} {l : Str}
    (h : l ∈ popTrailingEmpty ls) : l ∈ ls := by
  unfold popTrailingEmpty at h
  by_cases hc : ls.getLast? = some ([] : Str)
  · rw [if_pos hc] at h
    exact List.mem_of_mem_dropLast h
  · rw [if_neg hc] at h
    exact h

theorem mem_remnantLines_not_nl {target T : Str} {l : Str}
    (h : l ∈ remnantLines target T) : nlc ∉ l :=
  mem_splitNl_not_nl _ _
    (mem_popTrailingEmpty_subset (mem_stripMarkers_subset h))

theorem marker1_ne_nil (target : Str) : (markers target).1 ≠ [] := by
  intro h
  have := congrArg List.length h
  rw [markers, List.length_append] at this
  rw [show (lc "# BEGIN cronrepo generated: ").length = 28 from rfl] at this
  simp at this

theorem marker2_ne_nil (target : Str) : (markers target).2 ≠ [] := by
  intro h
  have := congrArg List.length h
  rw [markers, List.length_append] at this
  rw [show (lc "# END cronrepo generated: ").length = 26 from rfl] at this
  simp at this

theorem marker1_ne_marker2 (target : Str) :
    (markers target).1 ≠ (markers target).2 := by
  intro h
  have := congrArg List.length h
  rw [markers, List.length_append, List.length_append] at this
  rw [show (lc "# BEGIN cronrepo generated: ").length = 28 from rfl,
    show (lc "# END cronrepo generated: ").length = 26 from rfl] at this
  omega

theorem nl_not_in_marker1 {target : Str}
    (htg : ∀ c ∈ target, isWordChar c = true) : nlc ∉ (markers target).1 := by
  intro h
  rw [markers] at h
  rcases List.mem_append.mp h with h2 | h2
  · exact absurd h2 (by decide)
  · exact absurd (htg nlc h2) (by decide)

theorem nl_not_in_marker2 {target : Str}
    (htg : ∀ c ∈ target, isWordChar c = true) : nlc ∉ (markers target).2 := by
  intro h
  rw [markers] at h
  rcases List.mem_append.mp h with h2 | h2
  · exact absurd h2 (by decide)
  · exact absurd (htg nlc h2) (by decide)

theorem marker1_head (target : Str) : (markers target).1.head? = some '#' := by
  rw [markers, List.head?_append_of_ne_nil _ (by decide)]
  rfl

theorem mem_of_getLast?_eq {l : Str} {x : Char} (h : l.getLast? = some x) :
    x ∈ l := by
  rcases @List.mem_getLast?_eq_getLast _ l x h with ⟨hne, hx⟩
  rw [hx]
  exact List.getLast_mem hne

theorem marker2_getLast_not_ws {target : Str} (htg1 : target ≠ [])
    (htg2 : ∀ c ∈ target, isWordChar c = true) :
    ∀ c ∈ (markers target).2.getLast?, isPyWs c = false := by
  intro c hc
  rw [markers, List.getLast?_append] at hc
  rcases Option.isSome_iff_exists.mp (List.getLast?_isSome.mpr htg1) with ⟨x, hx⟩
  rw [hx] at hc
  have hcx : c = x := by
    cases hc
    rfl
  subst hcx
  exact word_not_ws (htg2 c (mem_of_getLast?_eq hx))

theorem blockText_eq (target : Str) (inner : List Str) :
    blockText target inner = joinNl (blockLines target inner) ++ [nlc] := by
  unfold blockText blockLines
  rw [show (markers target).1 :: (inner ++ [(markers target).2, []]) =
      ((markers target).1 :: (inner ++ [(markers target).2])) ++ [[]] by simp]
  exact joinNl_concat_nil _ (by simp)

theorem joinNl_head_of_ne_nil {l : Str} (ls : List Str) (hl : l ≠ []) :
    (joinNl (l :: ls)).head? = l.head? := by
  cases ls with
  | nil => rfl
  | cons t ts =>
    unfold joinNl
    rw [pyJoin_cons [nlc] l (t :: ts) (by simp)]
    rw [List.append_assoc, List.head?_append_of_ne_nil _ hl]

theorem joinNl_getLast_concat (ls : List Str) {m : Str} (hm : m ≠ []) :
    (joinNl (ls ++ [m])).getLast? = m.getLast? := by
  cases ls with
  | nil => rfl
  | cons t ts =>
    unfold joinNl
    rw [pyJoin_append [nlc] (t :: ts) [m] (by simp) (by simp)]
    rw [show pyJoin [nlc] [m] = m from rfl]
    rw [List.getLast?_append]
    rcases Option.isSome_iff_exists.mp (List.getLast?_isSome.mpr hm) with ⟨x, hx⟩
    rw [hx]
    rfl

theorem blockLines_head (target : Str) (inner : List Str) :
    (joinNl (blockLines target inner)).head? = some '#' := by
  unfold blockLines
  rw [joinNl_head_of_ne_nil (inner ++ [(markers target).2])
    (marker1_ne_nil target)]
  exact marker1_head target

theorem blockLines_getLast {target : Str} (inner : List Str) (htg1 : target ≠ [])
    (htg2 : ∀ c ∈ target, isWordChar c = true) :
    ∀ c ∈ (joinNl (blockLines target inner)).getLast?, isPyWs c = false := by
  intro c hc
  unfold blockLines at hc
  rw [show (markers target).1 :: (inner ++ [(markers target).2]) =
      ((markers target).1 :: inner) ++ [(markers target).2] by simp] at hc
  rw [joinNl_getLast_concat _ (marker2_ne_nil target)] at hc
  exact marker2_getLast_not_ws htg1 htg2 c hc

theorem remnant_install (target T : Str) (inner : List Str)
    (htg1 : target ≠ []) (htg2 : ∀ c ∈ target, isWordChar c = true)
    (hinner : ∀ l ∈ inner,
      nlc ∉ l ∧ l ≠ (markers target).1 ∧ l ≠ (markers target).2)
    (hrem1 : (markers target).1 ∉ remnantLines target T)
    (hrem2 : (markers target).2 ∉ remnantLines target T)
    (hhead : headCleanB (remnantLines target T) = true) :
    remnantLines target (installText target T (blockText target inner)) =
      remnantLines target T := by
  have hR : installText target T (blockText target inner) =
      (if remnantLines target T = [] then [nlc]
       else joinNl (remnantLines target T) ++ [nlc]) ++
        (joinNl (blockLines target inner) ++ [nlc]) := by
    rw [installText_of_remnant, blockText_eq]
  have hremnl : ∀ l ∈ remnantLines target T, nlc ∉ l :=
    fun l hl => mem_remnantLines_not_nl hl
  generalize hgen : remnantLines target T = rem at hR hrem1 hrem2 hhead hremnl ⊢
  -- Stripping the re-read text gives back the joined remnant and block lines.
  have hstrip : pyStrip (installText target T (blockText target inner)) =
      joinNl (rem ++ blockLines target inner) := by
    rw [hR]
    by_cases h0 : rem = []
    · rw [if_pos h0, h0, List.nil_append]
      rw [show ([nlc] ++ (joinNl (blockLines target inner) ++ [nlc])) =
          nlc :: (joinNl (blockLines target inner) ++ [nlc]) by simp]
      rw [pyStrip_cons_ws (by decide)]
      refine pyStrip_concat_nl ?_ (blockLines_getLast inner htg1 htg2)
      intro c hc
      rw [blockLines_head target inner] at hc
      cases hc
      decide
    · rw [if_neg h0]
      have hjoin : joinNl (rem ++ blockLines target inner) =
          joinNl rem ++ [nlc] ++ joinNl (blockLines target inner) :=
        pyJoin_append [nlc] rem (blockLines target inner) h0
          (by simp [blockLines])
      rw [show (joinNl rem ++ [nlc]) ++ (joinNl (blockLines target inner) ++ [nlc]) =
          (joinNl rem ++ [nlc] ++ joinNl (blockLines target inner)) ++ [nlc] by
            simp [List.append_assoc]]
      rw [← hjoin]
      apply pyStrip_concat_nl
      · intro c hc
        rcases hl0 : rem with _ | ⟨l0, rem'⟩
        · exact absurd hl0 h0
        · rcases hl00 : l0 with _ | ⟨c0, l0'⟩
          · rw [hl0, hl00] at hhead
            simp [headCleanB] at hhead
          · have hc0 : isPyWs c0 = false := by
              rw [hl0, hl00] at hhead
              simpa [headCleanB] using hhead
            rw [hl0] at hc
            have hjh : (joinNl ((l0 :: rem') ++ blockLines target inner)).head? =
                some c0 := by
              rw [show (l0 :: rem') ++ blockLines target inner =
                  l0 :: (rem' ++ blockLines target inner) by simp]
              rw [joinNl_head_of_ne_nil (rem' ++ blockLines target inner)
                (by simp [hl00])]
              rw [hl00]
              rfl
            rw [hjh] at hc
            cases hc
            exact hc0
      · intro c hc
        have hgl : (joinNl (rem ++ blockLines target inner)).getLast? =
            (markers target).2.getLast? := by
          rw [show rem ++ blockLines target inner =
              (rem ++ ((markers target).1 :: inner)) ++ [(markers target).2] by
                simp [blockLines]]
          exact joinNl_getLast_concat _ (marker2_ne_nil target)
        rw [hgl] at hc
        exact marker2_getLast_not_ws htg1 htg2 c hc
  -- Split the stripped text back into lines.
  have hlines : splitNl (pyStrip (installText target T (blockText target inner))) =
      rem ++ blockLines target inner := by
    rw [hstrip]
    apply splitNl_joinNl _ (by simp [blockLines])
    intro l hl
    rcases List.mem_append.mp hl with hl2 | hl2
    · exact hremnl l hl2
    · unfold blockLines at hl2
      rcases List.mem_cons.mp hl2 with hl3 | hl3
      · subst hl3; exact nl_not_in_marker1 htg2
      · rcases List.mem_append.mp hl3 with hl4 | hl4
        · exact (hinner l hl4).1
        · rw [List.mem_singleton] at hl4
          subst hl4
          exact nl_not_in_marker2 htg2
  -- No trailing empty line: the last line is the non-empty end marker.
  have hpop : popTrailingEmpty (rem ++ blockLines target inner) =
      rem ++ blockLines target inner := by
    apply popTrailingEmpty_eq_self
    rw [show rem ++ blockLines target inner =
        (rem ++ ((markers target).1 :: inner)) ++ [(markers target).2] by
          simp [blockLines]]
    rw [List.getLast?_concat]
    intro h
    injection h with h2
    exact marker2_ne_nil target h2
  -- The begin marker is first found at position `rem.length`, the end marker
  -- `inner.length + 1` further on.
  have hfind1 : (rem ++ blockLines target inner).findIdx?
      (fun l => l == (markers target).1) = some rem.length := by
    rw [findIdx?_append_none _ 0
      (by intro x hx
          simp only [beq_eq_false_iff_ne, ne_eq]
          intro he; subst he; exact hrem1 hx)]
    unfold blockLines
    rw [List.findIdx?_cons, if_pos (by simp)]
    simp
  have hfind2 : (rem ++ blockLines target inner).findIdx?
      (fun l => l == (markers target).2) =
      some (rem.length + inner.length + 1) := by
    rw [show rem ++ blockLines target inner =
        (rem ++ ((markers target).1 :: inner)) ++ [(markers target).2] by
          simp [blockLines]]
    rw [findIdx?_append_none _ 0 ?hnone]
    · rw [List.findIdx?_cons, if_pos (by simp)]
      simp only [Option.some.injEq, List.length_append, List.length_cons]
      omega
    case hnone =>
      intro x hx
      simp only [beq_eq_false_iff_ne, ne_eq]
      intro he
      subst he
      rcases List.mem_append.mp hx with hx2 | hx2
      · exact hrem2 hx2
      · rcases List.mem_cons.mp hx2 with hx3 | hx3
        · exact marker1_ne_marker2 target hx3.symm
        · exact (hinner _ hx3).2.2 rfl
  -- Stripping removes exactly the appended block.
  have hstrip2 : stripMarkers (markers target).1 (markers target).2
      (rem ++ blockLines target inner) = rem := by
    rw [stripMarkers_strip hfind1 hfind2 (by omega)]
    rw [List.take_left]
    rw [List.drop_eq_nil_of_le
      (by simp only [List.length_append, blockLines, List.length_cons]; simp; omega)]
    rw [List.append_nil]
    apply List.filter_eq_self.mpr
    intro l hl
    simp only [Bool.not_eq_eq_eq_not, Bool.not_true, Bool.or_eq_false_iff,
      beq_eq_false_iff_ne, ne_eq]
    exact ⟨fun he => hrem1 (he ▸ hl), fun he => hrem2 (he ▸ hl)⟩
  unfold remnantLines
  rw [hlines, hpop]
  exact hstrip2

/-- C1 counterexample: the merge is not idempotent for every table text.
First failure: a table consisting of the end marker alone; the second merge
then finds the (freshly appended) begin marker before the trailing end
marker, strips nothing because the first end-marker occurrence is earlier,
and appends a second block.  Second failure: a table whose remaining line
after the strip begins with a blank; the second merge eats that blank. -/
theorem merge_idempotent_cex :
    (installText (lc "t")
        (installText (lc "t") (lc "# END cronrepo generated: t")
          (blockText (lc "t") []))
        (blockText (lc "t") []) ≠
      installText (lc "t") (lc "# END cronrepo generated: t")
        (blockText (lc "t") [])) ∧
    (installText (lc "t")
        (installText (lc "t")
          (lc "# BEGIN cronrepo generated: t\n# END cronrepo generated: t\n x")
          (blockText (lc "t") []))
        (blockText (lc "t") []) ≠
      installText (lc "t")
        (lc "# BEGIN cronrepo generated: t\n# END cronrepo generated: t\n x")
        (blockText (lc "t") [])) := by
  constructor
  · decide
  · decide

/-- C1 (amended): the merge is idempotent for every generated block (begin
marker, marker-free newline-free payload lines, end marker, for a non-empty
word-character target) and every table text whose lines remaining after the
first strip contain neither marker and do not start with a whitespace
character: applying the merge again byte-for-byte reproduces the first
result.  The counterexample shows both restrictions are necessary. -/
theorem merge_idempotent (target T : Str) (inner : List Str)
    (htg1 : target ≠ []) (htg2 : ∀ c ∈ target, isWordChar c = true)
    (hinner : ∀ l ∈ inner,
      nlc ∉ l ∧ l ≠ (markers target).1 ∧ l ≠ (markers target).2)
    (hrem1 : (markers target).1 ∉ remnantLines target T)
    (hrem2 : (markers target).2 ∉ remnantLines target T)
    (hhead : headCleanB (remnantLines target T) = true) :
    installText target (installText target T (blockText target inner))
        (blockText target inner) =
      installText target T (blockText target inner) := by
  rw [installText_of_remnant target (installText target T (blockText target inner))
      (blockText target inner)]
  rw [remnant_install target T inner htg1 htg2 hinner hrem1 hrem2 hhead]
  rw [← installText_of_remnant]

/-- C1 witness: idempotence at a concrete table that already carries a
properly delimited block, with a two-line generated payload. -/
theorem merge_idempotent_witness :
    ((lc "t" : Str) ≠ []) ∧
    (∀ c ∈ (lc "t" : Str), isWordChar c = true) ∧
    (∀ l ∈ [lc "# Weekdays", lc "1 2 3 4 5 R t x"],
      nlc ∉ l ∧ l ≠ (markers (lc "t")).1 ∧ l ≠ (markers (lc "t")).2) ∧
    ((markers (lc "t")).1 ∉ remnantLines (lc "t")
      (lc "# hello\n# BEGIN cronrepo generated: t\njob\n# END cronrepo generated: t\n")) ∧
    ((markers (lc "t")).2 ∉ remnantLines (lc "t")
      (lc "# hello\n# BEGIN cronrepo generated: t\njob\n# END cronrepo generated: t\n")) ∧
    (headCleanB (remnantLines (lc "t")
      (lc "# hello\n# BEGIN cronrepo generated: t\njob\n# END cronrepo generated: t\n")) = true) ∧
    installText (lc "t")
        (installText (lc "t")
          (lc "# hello\n# BEGIN cronrepo generated: t\njob\n# END cronrepo generated: t\n")
          (blockText (lc "t") [lc "# Weekdays", lc "1 2 3 4 5 R t x"]))
        (blockText (lc "t") [lc "# Weekdays", lc "1 2 3 4 5 R t x"]) =
      installText (lc "t")
        (lc "# hello\n# BEGIN cronrepo generated: t\njob\n# END cronrepo generated: t\n")
        (blockText (lc "t") [lc "# Weekdays", lc "1 2 3 4 5 R t x"]) :=
  ⟨by decide, by decide, by decide, by decide, by decide, by decide,
    merge_idempotent (lc "t")
      (lc "# hello\n# BEGIN cronrepo generated: t\njob\n# END cronrepo generated: t\n")
      [lc "# Weekdays", lc "1 2 3 4 5 R t x"]
      (by decide) (by decide) (by decide) (by decide) (by decide) (by decide)⟩

/-! Parsing a well-formed tag line. -/

theorem isPyWs_cases {c : Char} (h : isPyWs c = true) :
    c = ' ' ∨ c = Char.ofNat 9 ∨ c = Char.ofNat 10 ∨ c = Char.ofNat 13 ∨
    c = Char.ofNat 11 ∨ c = Char.ofNat 12 := by
  simp only [isPyWs, Bool.or_eq_true, decide_eq_true_eq] at h
  tauto

theorem ws_not_field {c : Char} (h : isPyWs c = true) : isFieldChar c = false := by
  rcases isPyWs_cases h with h1 | h1 | h1 | h1 | h1 | h1 <;> subst h1 <;> decide

theorem field_not_ws {c : Char} (h : isFieldChar c = true) : isPyWs c = false := by
  by_contra hne
  have hws : isPyWs c = true := by
    cases hb : isPyWs c
    · exact absurd hb hne
    · rfl
  rw [ws_not_field hws] at h
  exact Bool.false_ne_true h

theorem dropWhile_all {p : Char → Bool} {A : Str}
    (hA : ∀ x ∈ A, p x = true) : A.dropWhile p = [] := by
  have h := @dropWhile_append_all p A [] hA (by simp)
  simpa using h

theorem parseLevel_built {level : Str} (hlv : validLevelB level = true)
    (rest : Str) :
    parseLevel (level ++ ':' :: rest) = (level, ':' :: rest) := by
  cases level with
  | nil =>
    simp only [List.nil_append, parseLevel]
    rw [if_neg (by decide)]
    rw [List.takeWhile_cons, if_neg (by decide), List.dropWhile_cons,
      if_neg (by decide)]
  | cons c ds =>
    simp only [validLevelB] at hlv
    rw [List.cons_append]
    simp only [parseLevel]
    by_cases hsign : c = '+' ∨ c = '-'
    · rw [if_pos hsign] at hlv ⊢
      rw [Bool.and_eq_true] at hlv
      have hds : ds ≠ [] := by
        intro he
        rw [he] at hlv
        simp at hlv
      have hda : ∀ x ∈ ds, Char.isDigit x = true := List.all_eq_true.mp hlv.2
      rw [takeWhile_append_all hda (by intro b hb; cases hb; decide)]
      rw [if_neg hds]
      rw [dropWhile_append_all hda (by intro b hb; cases hb; decide)]
    · rw [if_neg hsign] at hlv ⊢
      have hall : ∀ x ∈ c :: ds, Char.isDigit x = true := List.all_eq_true.mp hlv
      rw [show c :: (ds ++ ':' :: rest) = (c :: ds) ++ ':' :: rest by simp]
      rw [takeWhile_append_all hall (by intro b hb; cases hb; decide)]
      rw [dropWhile_append_all hall (by intro b hb; cases hb; decide)]

theorem parseFieldWs_built {f w : Str} (hf : f ≠ [])
    (hfa : ∀ c ∈ f, isFieldChar c = true)
    (hw : w ≠ []) (hwa : ∀ c ∈ w, isPyWs c = true) (rest : Str)
    (hrest : ∀ b ∈ rest.head?, isPyWs b = false) :
    parseFieldWs (f ++ (w ++ rest)) = some (f, rest) := by
  have hwhead : ∀ b ∈ (w ++ rest).head?, isFieldChar b = false := by
    intro b hb
    cases w with
    | nil => exact absurd rfl hw
    | cons wc wcs =>
      rw [List.cons_append] at hb
      simp only [List.head?_cons, Option.mem_def, Option.some.injEq] at hb
      subst hb
      exact ws_not_field (hwa _ (by simp))
  unfold parseFieldWs
  rw [takeWhile_append_all hfa hwhead, dropWhile_append_all hfa hwhead]
  rw [if_neg hf]
  rw [takeWhile_append_all hwa hrest, dropWhile_append_all hwa hrest]
  rw [if_neg hw]

theorem parseTail_noargs {w5 : Str} (hw : ∀ c ∈ w5, isPyWs c = true) :
    parseTail w5 = some [] := by
  unfold parseTail
  rw [dropWhile_all hw]
  rfl

theorem parseTail_args {w5 args : Str} (hw : ∀ c ∈ w5, isPyWs c = true)
    (hargs : nlc ∉ args) :
    parseTail (w5 ++ '+' :: args) = some args := by
  have hall : ∀ x ∈ args, (!(x = nlc : Bool)) = true := by
    intro x hx
    simp only [Bool.not_eq_eq_eq_not, Bool.not_true, decide_eq_false_iff_not]
    intro he
    subst he
    exact hargs hx
  have htw : args.takeWhile (fun x => !(x = nlc)) = args := by
    have h := @takeWhile_append_all _ args [] hall (by simp)
    simpa using h
  unfold parseTail
  rw [dropWhile_append_all hw (by intro b hb; cases hb; decide)]
  simp only [parseTailAux]
  rw [if_pos (by trivial)]
  rw [dropWhile_all hall, htw, if_pos (Or.inl rfl)]

theorem parseJid_absent {c : Char} (hc : ¬ c = '%') (rest : Str) :
    parseJid (c :: rest) = some ([], c :: rest) := by
  simp only [parseJid]
  rw [if_neg hc]

theorem parseJid_present {j : Str} (hj : j ≠ [])
    (hjw : ∀ c ∈ j, isWordChar c = true) (rest : Str) :
    parseJid ('%' :: (j ++ ':' :: rest)) = some (j, ':' :: rest) := by
  simp only [parseJid]
  rw [if_pos (by trivial)]
  rw [takeWhile_append_all hjw (by intro b hb; cases hb; decide)]
  rw [if_neg hj]
  rw [dropWhile_append_all hjw (by intro b hb; cases hb; decide)]

theorem expectChar_colon (rest : Str) :
    expectChar ':' (':' :: rest) = some rest := rfl

theorem fieldHead_not_ws {x : Str} (xs : Str) (hx : x ≠ [])
    (hxa : ∀ c ∈ x, isFieldChar c = true) :
    ∀ b ∈ (x ++ xs).head?, isPyWs b = false := by
  intro b hb
  cases x with
  | nil => exact absurd rfl hx
  | cons e es =>
    rw [List.cons_append] at hb
    simp only [List.head?_cons, Option.mem_def, Option.some.injEq] at hb
    subst hb
    exact field_not_ws (hxa _ (by simp))

theorem parseRest_built (path tg j : Str) {level mn h d mo dw : Str}
    {w1 w2 w3 w4 tail a : Str}
    (hlv : validLevelB level = true)
    (hmn : mn ≠ []) (hmna : ∀ c ∈ mn, isFieldChar c = true)
    (hh : h ≠ []) (hha : ∀ c ∈ h, isFieldChar c = true)
    (hd : d ≠ []) (hda : ∀ c ∈ d, isFieldChar c = true)
    (hmo : mo ≠ []) (hmoa : ∀ c ∈ mo, isFieldChar c = true)
    (hdw : dw ≠ []) (hdwa : ∀ c ∈ dw, isFieldChar c = true)
    (hw1 : w1 ≠ []) (hw1a : ∀ c ∈ w1, isPyWs c = true)
    (hw2 : w2 ≠ []) (hw2a : ∀ c ∈ w2, isPyWs c = true)
    (hw3 : w3 ≠ []) (hw3a : ∀ c ∈ w3, isPyWs c = true)
    (hw4 : w4 ≠ []) (hw4a : ∀ c ∈ w4, isPyWs c = true)
    (htail : ∀ b ∈ tail.head?, isFieldChar b = false)
    (htp : parseTail tail = some a) :
    parseRest path tg j
      (':' :: (level ++ (':' :: (mn ++ (w1 ++ (h ++ (w2 ++ (d ++ (w3 ++
        (mo ++ (w4 ++ (dw ++ tail)))))))))))) =
      some ⟨path, tg, j, level, mn, h, d, mo, dw, a⟩ := by
  unfold parseRest
  rw [expectChar_colon]
  simp only [Option.some_bind]
  rw [parseLevel_built hlv]
  simp only []
  rw [expectChar_colon]
  simp only [Option.some_bind]
  rw [parseFieldWs_built hmn hmna hw1 hw1a _ (fieldHead_not_ws _ hh hha)]
  simp only [Option.some_bind]
  rw [parseFieldWs_built hh hha hw2 hw2a _ (fieldHead_not_ws _ hd hda)]
  simp only [Option.some_bind]
  rw [parseFieldWs_built hd hda hw3 hw3a _ (fieldHead_not_ws _ hmo hmoa)]
  simp only [Option.some_bind]
  rw [parseFieldWs_built hmo hmoa hw4 hw4a _ (fieldHead_not_ws _ hdw hdwa)]
  simp only [Option.some_bind]
  rw [takeWhile_append_all hdwa htail, dropWhile_append_all hdwa htail]
  rw [if_neg hdw]
  rw [htp]
  rfl

theorem recognize_built (path ws0 target jid : Str)
    {level mn h d mo dw w1 w2 w3 w4 tail a : Str}
    (hws0 : ∀ c ∈ ws0, isPyWs c = true)
    (htg : ∀ c ∈ target, isWordChar c = true)
    (hjid : ∀ c ∈ jid, isWordChar c = true)
    (hlv : validLevelB level = true)
    (hmn : mn ≠ []) (hmna : ∀ c ∈ mn, isFieldChar c = true)
    (hh : h ≠ []) (hha : ∀ c ∈ h, isFieldChar c = true)
    (hd : d ≠ []) (hda : ∀ c ∈ d, isFieldChar c = true)
    (hmo : mo ≠ []) (hmoa : ∀ c ∈ mo, isFieldChar c = true)
    (hdw : dw ≠ []) (hdwa : ∀ c ∈ dw, isFieldChar c = true)
    (hw1 : w1 ≠ []) (hw1a : ∀ c ∈ w1, isPyWs c = true)
    (hw2 : w2 ≠ []) (hw2a : ∀ c ∈ w2, isPyWs c = true)
    (hw3 : w3 ≠ []) (hw3a : ∀ c ∈ w3, isPyWs c = true)
    (hw4 : w4 ≠ []) (hw4a : ∀ c ∈ w4, isPyWs c = true)
    (htail : ∀ b ∈ tail.head?, isFieldChar b = false)
    (htp : parseTail tail = some a) :
    recognize_cron_line path
      (mkTagLine ws0 target jid level mn w1 h w2 d w3 mo w4 dw tail) =
      some ⟨path, target, jid, level, mn, h, d, mo, dw, a⟩ := by
  have hrest := parseRest_built path target jid hlv hmn hmna hh hha hd hda
    hmo hmoa hdw hdwa hw1 hw1a hw2 hw2a hw3 hw3a hw4 hw4a htail htp
  unfold mkTagLine
  simp only [recognize_cron_line]
  rw [if_pos (by trivial)]
  rw [dropWhile_append_all hws0 ?hch]
  case hch =>
    intro b hb
    rw [show (lc "CRON@" : Str) = 'C' :: 'R' :: 'O' :: 'N' :: '@' :: []
      from rfl, List.cons_append] at hb
    simp only [List.head?_cons, Option.mem_def, Option.some.injEq] at hb
    subst hb
    decide
  rw [show (lc "CRON@" : Str) = 'C' :: 'R' :: 'O' :: 'N' :: '@' :: []
    from rfl]
  simp only [List.cons_append, List.nil_append]
  simp only [recognizeAfterHash]
  rw [if_pos (by trivial)]
  by_cases hj : jid = []
  · rw [if_pos hj]
    rw [List.nil_append]
    rw [takeWhile_append_all htg (by intro b hb; cases hb; decide)]
    rw [dropWhile_append_all htg (by intro b hb; cases hb; decide)]
    rw [parseJid_absent (by decide)]
    simp only [Option.some_bind]
    rw [hj] at hrest ⊢
    exact hrest
  · rw [if_neg hj]
    rw [takeWhile_append_all htg (by intro b hb; cases hb; decide)]
    rw [dropWhile_append_all htg (by intro b hb; cases hb; decide)]
    rw [show (('%' :: jid) ++
        (':' :: (level ++ (':' :: (mn ++ (w1 ++ (h ++ (w2 ++ (d ++ (w3 ++
          (mo ++ (w4 ++ (dw ++ tail))))))))))))) =
        '%' :: (jid ++ ':' :: (level ++ (':' :: (mn ++ (w1 ++ (h ++ (w2 ++
          (d ++ (w3 ++ (mo ++ (w4 ++ (dw ++ tail)))))))))))) by simp]
    rw [parseJid_present hj hjid]
    simp only [Option.some_bind]
    exact hrest

/-- C6 counterexample: on a line that is otherwise well-formed under the tag
grammar, a level field consisting of a bare sign (here `+`) does not yield a
match: the source regex `(?:[+-]?[0-9]+)?` demands at least one digit
whenever the sign is present. -/
theorem level_field_cex :
    recognize_cron_line (lc "P") (lc "# CRON@t:+:0 0 * * *") = none := by
  decide

/-- C6 (amended): a level field between the two colons matches exactly when
it is empty or an optionally signed non-empty digit run; the level then
defaults to 0 when the field is empty and is otherwise the signed integer
value of the field (`+` keeps, `-` negates the digit value). -/
theorem level_field (path target level mn h d mo dw : Str)
    (htg : ∀ c ∈ target, isWordChar c = true)
    (hlv : validLevelB level = true)
    (hmn : mn ≠ []) (hmna : ∀ c ∈ mn, isFieldChar c = true)
    (hh : h ≠ []) (hha : ∀ c ∈ h, isFieldChar c = true)
    (hd : d ≠ []) (hda : ∀ c ∈ d, isFieldChar c = true)
    (hmo : mo ≠ []) (hmoa : ∀ c ∈ mo, isFieldChar c = true)
    (hdw : dw ≠ []) (hdwa : ∀ c ∈ dw, isFieldChar c = true) :
    recognize_cron_line path
      (mkTagLine [' '] target [] level mn [' '] h [' '] d [' '] mo [' ']
        dw []) =
      some ⟨path, target, [], level, mn, h, d, mo, dw, []⟩ ∧
    levelOf ⟨path, target, [], level, mn, h, d, mo, dw, []⟩ =
      (if level = [] then 0 else pyInt level) ∧
    (∀ ds : Str, pyInt ('+' :: ds) = (digitsVal ds : Int)) ∧
    (∀ ds : Str, pyInt ('-' :: ds) = -(digitsVal ds : Int)) := by
  refine ⟨?_, rfl, fun ds => rfl, fun ds => rfl⟩
  exact recognize_built path [' '] target [] (by decide)
    htg (by simp) hlv hmn hmna hh hha hd hda hmo hmoa hdw hdwa
    (by decide) (by decide) (by decide) (by decide)
    (by decide) (by decide) (by decide) (by decide)
    (by intro b hb; simp at hb) (parseTail_noargs (by simp))

/-- C6 witness: the amended level-field property at a concrete line with a
negative level. -/
theorem level_field_witness :
    (∀ c ∈ (lc "t2" : Str), isWordChar c = true) ∧
    validLevelB (lc "-1") = true ∧
    (recognize_cron_line (lc "P")
        (mkTagLine [' '] (lc "t2") [] (lc "-1") (lc "04") [' '] (lc "17")
          [' '] (lc "*") [' '] (lc "*") [' '] (lc "1") []) =
      some ⟨lc "P", lc "t2", [], lc "-1", lc "04", lc "17", lc "*", lc "*",
        lc "1", []⟩ ∧
    levelOf ⟨lc "P", lc "t2", [], lc "-1", lc "04", lc "17", lc "*", lc "*",
        lc "1", []⟩ =
      (if (lc "-1" : Str) = [] then 0 else pyInt (lc "-1")) ∧
    (∀ ds : Str, pyInt ('+' :: ds) = (digitsVal ds : Int)) ∧
    (∀ ds : Str, pyInt ('-' :: ds) = -(digitsVal ds : Int))) :=
  ⟨by decide, by decide,
    level_field (lc "P") (lc "t2") (lc "-1") (lc "04") (lc "17") (lc "*")
      (lc "*") (lc "1") (by decide) (by decide) (by decide) (by decide)
      (by decide) (by decide) (by decide) (by decide) (by decide) (by decide)
      (by decide) (by decide)⟩

/-- C8: round trip for every syntactically valid tag line, built from any
valid combination of components: parsing extracts exactly the five
recurrence fields, the target, the job id, the level and the args from the
line, and rendering the parsed descriptor reproduces those five fields
verbatim together with the routing metadata (target, quoted job id, source
path, trimmed extra args). -/
theorem parse_render_roundtrip (path ws0 target jid : Str)
    {level mn h d mo dw w1 w2 w3 w4 tail a : Str} (runner : Str)
    (hws0 : ∀ c ∈ ws0, isPyWs c = true)
    (htg : ∀ c ∈ target, isWordChar c = true)
    (hjid : ∀ c ∈ jid, isWordChar c = true)
    (hlv : validLevelB level = true)
    (hmn : mn ≠ []) (hmna : ∀ c ∈ mn, isFieldChar c = true)
    (hh : h ≠ []) (hha : ∀ c ∈ h, isFieldChar c = true)
    (hd : d ≠ []) (hda : ∀ c ∈ d, isFieldChar c = true)
    (hmo : mo ≠ []) (hmoa : ∀ c ∈ mo, isFieldChar c = true)
    (hdw : dw ≠ []) (hdwa : ∀ c ∈ dw, isFieldChar c = true)
    (hw1 : w1 ≠ []) (hw1a : ∀ c ∈ w1, isPyWs c = true)
    (hw2 : w2 ≠ []) (hw2a : ∀ c ∈ w2, isPyWs c = true)
    (hw3 : w3 ≠ []) (hw3a : ∀ c ∈ w3, isPyWs c = true)
    (hw4 : w4 ≠ []) (hw4a : ∀ c ∈ w4, isPyWs c = true)
    (htail : ∀ b ∈ tail.head?, isFieldChar b = false)
    (htp : parseTail tail = some a) :
    recognize_cron_line path
      (mkTagLine ws0 target jid level mn w1 h w2 d w3 mo w4 dw tail) =
      some ⟨path, target, jid, level, mn, h, d, mo, dw, a⟩ ∧
    cron_line ⟨path, target, jid, level, mn, h, d, mo, dw, a⟩ runner =
      mn ++ ' ' :: h ++ ' ' :: d ++ ' ' :: mo ++ ' ' :: dw ++
      ' ' :: runner ++ ' ' :: target ++ ' ' :: squote :: jid ++ squote ::
      ' ' :: path ++
      (if pyStrip a = [] then [] else ' ' :: pyStrip a) :=
  ⟨recognize_built path ws0 target jid hws0 htg hjid hlv hmn hmna hh hha
      hd hda hmo hmoa hdw hdwa hw1 hw1a hw2 hw2a hw3 hw3a hw4 hw4a htail htp,
    cron_line_eq _ runner⟩

/-- C8 witness: the round trip at the scenario line
`# CRON@t2%j1:-1:04 17 * * 1 + foo bar`. -/
theorem parse_render_roundtrip_witness :
    (mkTagLine [' '] (lc "t2") (lc "j1") (lc "-1") (lc "04") [' '] (lc "17")
        [' '] (lc "*") [' '] (lc "*") [' '] (lc "1") (lc " + foo bar") =
      lc "# CRON@t2%j1:-1:04 17 * * 1 + foo bar") ∧
    parseTail (lc " + foo bar") = some (lc " foo bar") ∧
    (recognize_cron_line (lc "x/y/foo")
        (mkTagLine [' '] (lc "t2") (lc "j1") (lc "-1") (lc "04") [' ']
          (lc "17") [' '] (lc "*") [' '] (lc "*") [' '] (lc "1")
          (lc " + foo bar")) =
      some ⟨lc "x/y/foo", lc "t2", lc "j1", lc "-1", lc "04", lc "17",
        lc "*", lc "*", lc "1", lc " foo bar"⟩ ∧
    cron_line ⟨lc "x/y/foo", lc "t2", lc "j1", lc "-1", lc "04", lc "17",
        lc "*", lc "*", lc "1", lc " foo bar"⟩ (lc "RUN") =
      lc "04" ++ ' ' :: lc "17" ++ ' ' :: lc "*" ++ ' ' :: lc "*" ++
      ' ' :: lc "1" ++ ' ' :: lc "RUN" ++ ' ' :: lc "t2" ++
      ' ' :: squote :: lc "j1" ++ squote :: ' ' :: lc "x/y/foo" ++
      (if pyStrip (lc " foo bar") = [] then []
       else ' ' :: pyStrip (lc " foo bar"))) :=
  ⟨by decide, by decide,
    @parse_render_roundtrip (lc "x/y/foo") [' '] (lc "t2") (lc "j1")
      (lc "-1") (lc "04") (lc "17") (lc "*") (lc "*") (lc "1")
      [' '] [' '] [' '] [' '] (lc " + foo bar") (lc " foo bar") (lc "RUN")
      (by decide) (by decide) (by decide) (by decide) (by decide) (by decide)
      (by decide) (by decide) (by decide) (by decide) (by decide) (by decide)
      (by decide) (by decide) (by decide) (by decide) (by decide) (by decide)
      (by decide) (by decide) (by decide) (by decide) (by decide) (by decide)⟩

/-! The k-way lazy merge of the invocation scheduler. -/

theorem keyLt_iff {x y : Nat × Nat} : keyLtB x y = true ↔ keyLt x y := by
  unfold keyLtB keyLt
  simp

theorem keyLt_irrefl (x : Nat × Nat) : ¬ keyLt x x := by
  unfold keyLt
  omega

theorem keyLt_asymm {x y : Nat × Nat} (h : keyLt x y) : ¬ keyLt y x := by
  unfold keyLt at *
  omega

theorem keyLt_trans {x y z : Nat × Nat} (h1 : keyLt x y) (h2 : keyLt y z) :
    keyLt x z := by
  unfold keyLt at *
  omega

theorem not_keyLt_trans {x y z : Nat × Nat} (h1 : ¬ keyLt y x)
    (h2 : ¬ keyLt z y) : ¬ keyLt z x := by
  unfold keyLt at *
  omega

theorem betterCur_le_left {α : Type} (a b : Cur α) :
    ¬ keyLt (curKey a) (curKey (betterCur a b)) := by
  unfold betterCur
  by_cases hb : keyLtB (curKey b) (curKey a) = true
  · rw [if_pos hb]
    exact keyLt_asymm (keyLt_iff.mp hb)
  · rw [if_neg hb]
    exact keyLt_irrefl _

theorem betterCur_le_right {α : Type} (a b : Cur α) :
    ¬ keyLt (curKey b) (curKey (betterCur a b)) := by
  unfold betterCur
  by_cases hb : keyLtB (curKey b) (curKey a) = true
  · rw [if_pos hb]
    exact keyLt_irrefl _
  · rw [if_neg hb]
    intro hlt
    exact hb (keyLt_iff.mpr hlt)

theorem foldl_better_mem {α : Type} (c : Cur α) (cs : List (Cur α)) :
    cs.foldl betterCur c = c ∨ cs.foldl betterCur c ∈ cs := by
  induction cs generalizing c with
  | nil => left; rfl
  | cons d ds ih =>
    simp only [List.foldl_cons]
    rcases ih (betterCur c d) with h | h
    · rw [h]
      unfold betterCur
      by_cases hb : keyLtB (curKey d) (curKey c) = true
      · rw [if_pos hb]
        right
        simp
      · rw [if_neg hb]
        left
        rfl
    · right
      exact List.mem_cons_of_mem _ h

theorem foldl_better_min {α : Type} (c : Cur α) (cs : List (Cur α)) :
    ∀ x, (x = c ∨ x ∈ cs) →
      ¬ keyLt (curKey x) (curKey (cs.foldl betterCur c)) := by
  induction cs generalizing c with
  | nil =>
    intro x hx
    rcases hx with h | h
    · subst h
      exact keyLt_irrefl _
    · exact absurd h (List.not_mem_nil x)
  | cons d ds ih =>
    intro x hx
    simp only [List.foldl_cons]
    rcases hx with h | h
    · subst h
      exact not_keyLt_trans (ih (betterCur x d) (betterCur x d) (Or.inl rfl))
        (betterCur_le_left x d)
    · rcases List.mem_cons.mp h with h2 | h2
      · subst h2
        exact not_keyLt_trans (ih (betterCur c x) (betterCur c x) (Or.inl rfl))
          (betterCur_le_right c x)
      · exact ih (betterCur c d) x (Or.inr h2)

theorem pickMin_mem {α : Type} {cs : List (Cur α)} {m : Cur α}
    (h : pickMin cs = some m) : m ∈ cs := by
  cases cs with
  | nil => simp [pickMin] at h
  | cons c rest =>
    simp only [pickMin, Option.some.injEq] at h
    rcases foldl_better_mem c rest with h2 | h2
    · rw [h] at h2
      rw [h2]
      simp
    · rw [h] at h2
      exact List.mem_cons_of_mem _ h2

theorem pickMin_min {α : Type} {cs : List (Cur α)} {m : Cur α}
    (h : pickMin cs = some m) : ∀ c ∈ cs, ¬ keyLt (curKey c) (curKey m) := by
  cases cs with
  | nil => intro c hc; simp at hc
  | cons c0 rest =>
    simp only [pickMin, Option.some.injEq] at h
    intro c hc
    rw [← h]
    rcases List.mem_cons.mp hc with h2 | h2
    · exact foldl_better_min c0 rest c (Or.inl h2)
    · exact foldl_better_min c0 rest c (Or.inr h2)

theorem pickMin_none {α : Type} {cs : List (Cur α)} (h : pickMin cs = none) :
    cs = [] := by
  cases cs with
  | nil => rfl
  | cons c rest => simp [pickMin] at h

theorem iids_advance {α : Type} (next : α → Nat → Nat) (m : Cur α)
    (cs : List (Cur α)) : iids (advance next m cs) = iids cs := by
  unfold iids advance
  rw [List.map_map]
  apply List.map_congr_left
  intro c _
  by_cases h : c.iid = m.iid <;> simp [h]

theorem mem_same_iid {α : Type} :
    ∀ {cs : List (Cur α)}, (iids cs).Nodup →
      ∀ {a b : Cur α}, a ∈ cs → b ∈ cs → a.iid = b.iid → a = b := by
  intro cs
  induction cs with
  | nil => intro _ a b ha; simp at ha
  | cons c rest ih =>
    intro hnd a b ha hb hiid
    simp only [iids, List.map_cons, List.nodup_cons] at hnd
    rcases List.mem_cons.mp ha with h1 | h1 <;>
      rcases List.mem_cons.mp hb with h2 | h2
    · rw [h1, h2]
    · subst h1
      exfalso
      apply hnd.1
      rw [hiid]
      exact List.mem_map_of_mem _ h2
    · subst h2
      exfalso
      apply hnd.1
      rw [← hiid]
      exact List.mem_map_of_mem _ h1
    · exact ih hnd.2 h1 h2 hiid

theorem advance_mem {α : Type} {next : α → Nat → Nat} {m : Cur α}
    {cs : List (Cur α)} {c : Cur α} (hc : c ∈ cs) (hne : ¬ c.iid = m.iid) :
    c ∈ advance next m cs := by
  unfold advance
  exact List.mem_map.mpr ⟨c, hc, by simp [hne]⟩

theorem advance_self_mem {α : Type} {next : α → Nat → Nat} {m : Cur α}
    {cs : List (Cur α)} (hm : m ∈ cs) :
    (⟨next m.sp m.val, m.iid, m.sp⟩ : Cur α) ∈ advance next m cs := by
  unfold advance
  exact List.mem_map.mpr ⟨m, hm, by simp⟩

theorem advance_keys_gt {α : Type} {next : α → Nat → Nat}
    (hnext : ∀ sp t, t < next sp t) {cs : List (Cur α)}
    (hnd : (iids cs).Nodup) {m : Cur α} (hp : pickMin cs = some m)
    (c : Cur α) (hc : c ∈ advance next m cs) :
    keyLt (curKey m) (curKey c) := by
  unfold advance at hc
  rcases List.mem_map.mp hc with ⟨c0, hc0, heq⟩
  by_cases hi : c0.iid = m.iid
  · rw [if_pos hi] at heq
    subst heq
    left
    exact hnext m.sp m.val
  · rw [if_neg hi] at heq
    subst heq
    have hmin := pickMin_min hp c0 hc0
    unfold keyLt curKey at hmin ⊢
    simp only [not_or, not_and, not_lt] at hmin
    rcases Nat.lt_trichotomy m.val c0.val with h | h | h
    · left; exact h
    · right
      refine ⟨h, ?_⟩
      rcases Nat.lt_trichotomy m.iid c0.iid with h2 | h2 | h2
      · exact h2
      · exact absurd h2.symm hi
      · exact absurd h2 (by have := hmin.2 h.symm; omega)
    · exact absurd h (by have := hmin.1; omega)

theorem mergeRun_zero {α : Type} (next : α → Nat → Nat) (endT : Nat)
    (cs : List (Cur α)) : mergeRun next endT 0 cs = [] := rfl

theorem mergeRun_succ_none {α : Type} (next : α → Nat → Nat) (endT n : Nat)
    {cs : List (Cur α)} (hp : pickMin cs = none) :
    mergeRun next endT (n + 1) cs = [] := by
  unfold mergeRun
  rw [hp]

theorem mergeRun_succ_some {α : Type} (next : α → Nat → Nat) (endT n : Nat)
    {cs : List (Cur α)} {m : Cur α} (hp : pickMin cs = some m) :
    mergeRun next endT (n + 1) cs =
      if endT < m.val then []
      else (m.val, m.iid) :: mergeRun next endT n (advance next m cs) := by
  conv_lhs => simp only [mergeRun]
  rw [hp]

theorem mergeRun_lb {α : Type} {next : α → Nat → Nat}
    (hnext : ∀ sp t, t < next sp t) (endT : Nat) :
    ∀ (fuel : Nat) (cs : List (Cur α)), (iids cs).Nodup →
      ∀ K, (∀ c ∈ cs, keyLt K (curKey c)) →
        ∀ e ∈ mergeRun next endT fuel cs, keyLt K e := by
  intro fuel
  induction fuel with
  | zero =>
    intro cs _ K _ e he
    simp [mergeRun] at he
  | succ n ih =>
    intro cs hnd K hK e he
    cases hp : pickMin cs with
    | none =>
      rw [mergeRun_succ_none next endT n hp] at he
      simp at he
    | some m =>
      rw [mergeRun_succ_some next endT n hp] at he
      by_cases hend : endT < m.val
      · rw [if_pos hend] at he; simp at he
      · rw [if_neg hend] at he
        rcases List.mem_cons.mp he with h1 | h1
        · subst h1
          exact hK m (pickMin_mem hp)
        · refine ih (advance next m cs) ?_ K ?_ e h1
          · rw [iids_advance]
            exact hnd
          · intro c hc
            exact keyLt_trans (hK m (pickMin_mem hp))
              (advance_keys_gt hnext hnd hp c hc)

theorem mergeRun_chain {α : Type} {next : α → Nat → Nat}
    (hnext : ∀ sp t, t < next sp t) (endT : Nat) :
    ∀ (fuel : Nat) (cs : List (Cur α)), (iids cs).Nodup →
      List.Chain' keyLt (mergeRun next endT fuel cs) := by
  intro fuel
  induction fuel with
  | zero => intro cs _; simp [mergeRun]
  | succ n ih =>
    intro cs hnd
    cases hp : pickMin cs with
    | none =>
      rw [mergeRun_succ_none next endT n hp]
      simp
    | some m =>
      rw [mergeRun_succ_some next endT n hp]
      by_cases hend : endT < m.val
      · rw [if_pos hend]; simp
      · rw [if_neg hend]
        have hnd2 : (iids (advance next m cs)).Nodup := by
          rw [iids_advance]
          exact hnd
        refine List.Chain'.cons' (ih _ hnd2) ?_
        intro y hy
        exact mergeRun_lb hnext endT n _ hnd2 _
          (fun c hc => advance_keys_gt hnext hnd hp c hc) y
          (List.mem_of_mem_head? hy)

theorem mergeRun_window {α : Type} {next : α → Nat → Nat}
    (hnext : ∀ sp t, t < next sp t) (endT lowT : Nat) :
    ∀ (fuel : Nat) (cs : List (Cur α)), (∀ c ∈ cs, lowT < c.val) →
      ∀ e ∈ mergeRun next endT fuel cs, lowT < e.1 ∧ e.1 ≤ endT := by
  intro fuel
  induction fuel with
  | zero =>
    intro cs _ e he
    simp [mergeRun] at he
  | succ n ih =>
    intro cs hlow e he
    cases hp : pickMin cs with
    | none =>
      rw [mergeRun_succ_none next endT n hp] at he
      simp at he
    | some m =>
      rw [mergeRun_succ_some next endT n hp] at he
      by_cases hend : endT < m.val
      · rw [if_pos hend] at he; simp at he
      · rw [if_neg hend] at he
        rcases List.mem_cons.mp he with h1 | h1
        · subst h1
          exact ⟨hlow m (pickMin_mem hp), by omega⟩
        · refine ih (advance next m cs) ?_ e h1
          intro c hc
          unfold advance at hc
          rcases List.mem_map.mp hc with ⟨c0, hc0, heq⟩
          by_cases hi : c0.iid = m.iid
          · rw [if_pos hi] at heq
            subst heq
            have h1 := hlow m (pickMin_mem hp)
            have h2 := hnext m.sp m.val
            show lowT < next m.sp m.val
            omega
          · rw [if_neg hi] at heq
            subst heq
            exact hlow c0 hc0

theorem streamVal_shift {α : Type} (next : α → Nat → Nat) (sp : α)
    (v : Nat) : ∀ n, streamVal next sp v (n + 1) =
      streamVal next sp (next sp v) n := by
  intro n
  induction n with
  | zero => rfl
  | succ k ih =>
    show next sp (streamVal next sp v (k + 1)) =
      next sp (streamVal next sp (next sp v) k)
    rw [ih]

theorem streamVal_ge {α : Type} {next : α → Nat → Nat}
    (hnext : ∀ sp t, t < next sp t) (sp : α) (v : Nat) :
    ∀ n, v ≤ streamVal next sp v n := by
  intro n
  induction n with
  | zero => exact Nat.le_refl v
  | succ k ih =>
    have h := hnext sp (streamVal next sp v k)
    show v ≤ next sp (streamVal next sp v k)
    omega

theorem advance_noop {α : Type} (next : α → Nat → Nat) (m : Cur α)
    {cs : List (Cur α)} (h : ∀ c ∈ cs, ¬ c.iid = m.iid) :
    advance next m cs = cs := by
  unfold advance
  rw [List.map_congr_left (fun c hc => if_neg (h c hc))]
  exact List.map_id _

theorem slack_advance_lt {α : Type} {next : α → Nat → Nat}
    (hnext : ∀ sp t, t < next sp t) (endT : Nat) :
    ∀ {cs : List (Cur α)}, (iids cs).Nodup → ∀ {m : Cur α}, m ∈ cs →
      m.val ≤ endT →
      cursorsSlack endT (advance next m cs) < cursorsSlack endT cs := by
  intro cs
  induction cs with
  | nil => intro _ m hm; simp at hm
  | cons c rest ih =>
    intro hnd m hm hend
    simp only [iids, List.map_cons, List.nodup_cons] at hnd
    by_cases hi : c.iid = m.iid
    · have hmc : m = c := by
        rcases List.mem_cons.mp hm with h | h
        · exact h
        · exfalso
          apply hnd.1
          rw [hi]
          exact List.mem_map_of_mem _ h
      subst hmc
      unfold advance cursorsSlack
      simp only [List.map_cons, List.sum_cons, eq_self_iff_true, if_true]
      have hrest : (rest.map (fun c : Cur α =>
          if c.iid = m.iid then ⟨next m.sp m.val, m.iid, m.sp⟩ else c)) =
          rest := by
        rw [List.map_congr_left ?_]
        · exact List.map_id _
        · intro x hx
          refine if_neg ?_
          intro he
          apply hnd.1
          rw [← hi, ← he]
          exact List.mem_map_of_mem _ hx
      rw [hrest]
      have h2 := hnext m.sp m.val
      have h3 : m.val ≤ endT := hend
      omega
    · have hm2 : m ∈ rest := by
        rcases List.mem_cons.mp hm with h | h
        · exfalso
          apply hi
          rw [h]
        · exact h
      have hlt := ih hnd.2 hm2 hend
      unfold advance cursorsSlack at hlt ⊢
      simp only [List.map_cons, List.sum_cons, if_neg hi]
      omega

theorem mergeRun_complete {α : Type} {next : α → Nat → Nat}
    (hnext : ∀ sp t, t < next sp t) (endT : Nat) :
    ∀ (fuel : Nat) (cs : List (Cur α)), cursorsSlack endT cs < fuel →
      (iids cs).Nodup →
      ∀ c ∈ cs, ∀ k, streamVal next c.sp c.val k ≤ endT →
        (streamVal next c.sp c.val k, c.iid) ∈ mergeRun next endT fuel cs := by
  intro fuel
  induction fuel with
  | zero =>
    intro cs hsl
    omega
  | succ n ih =>
    intro cs hsl hnd c hc k hk
    cases hp : pickMin cs with
    | none =>
      rw [pickMin_none hp] at hc
      simp at hc
    | some m =>
      rw [mergeRun_succ_some next endT n hp]
      by_cases hend : endT < m.val
      · exfalso
        have hge := streamVal_ge hnext c.sp c.val k
        have hmin := pickMin_min hp c hc
        unfold keyLt curKey at hmin
        simp only [not_or, not_and, not_lt] at hmin
        have := hmin.1
        omega
      · rw [if_neg hend]
        have hmend : m.val ≤ endT := by omega
        have hnd2 : (iids (advance next m cs)).Nodup := by
          rw [iids_advance]
          exact hnd
        have hsl2 : cursorsSlack endT (advance next m cs) < n := by
          have := slack_advance_lt hnext endT hnd (pickMin_mem hp) hmend
          omega
        by_cases hcm : c.iid = m.iid
        · have hceq : c = m := mem_same_iid hnd hc (pickMin_mem hp) hcm
          subst hceq
          cases k with
          | zero =>
            show (c.val, c.iid) ∈ (c.val, c.iid) :: _
            exact List.mem_cons_self _ _
          | succ k0 =>
            apply List.mem_cons_of_mem
            rw [streamVal_shift] at hk ⊢
            have hadv := @advance_self_mem _ next c cs (pickMin_mem hp)
            have hres := ih (advance next c cs) hsl2 hnd2 _ hadv k0 hk
            exact hres
        · apply List.mem_cons_of_mem
          exact ih (advance next m cs) hsl2 hnd2 c (advance_mem hc hcm) k hk

theorem iids_initCursors (next : CronInfo → Nat → Nat) (start : Nat)
    (specs : List CronInfo) :
    iids (initCursors next start specs) = List.range specs.length := by
  unfold iids initCursors
  rw [List.map_map]
  have h : ((fun c : Cur CronInfo => c.iid) ∘ fun p : Nat × CronInfo =>
      (⟨next p.2 start, p.1, p.2⟩ : Cur CronInfo)) = Prod.fst := by
    funext p
    rfl
  rw [h, List.enum_map_fst]

theorem initCursors_length (next : CronInfo → Nat → Nat) (start : Nat)
    (specs : List CronInfo) :
    (initCursors next start specs).length = specs.length := by
  unfold initCursors
  rw [List.length_map, List.enum_length]

theorem mem_initCursors {next : CronInfo → Nat → Nat} {start : Nat}
    {specs : List CronInfo} {i : Nat} {sp : CronInfo}
    (h : specs[i]? = some sp) :
    (⟨next sp start, i, sp⟩ : Cur CronInfo) ∈ initCursors next start specs := by
  unfold initCursors
  refine List.mem_map.mpr ⟨(i, sp), ?_, rfl⟩
  rw [List.mk_mem_enum_iff_getElem?]
  exact h

theorem initCursors_val_gt {next : CronInfo → Nat → Nat}
    (hnext : ∀ sp t, t < next sp t) (start : Nat) (specs : List CronInfo) :
    ∀ c ∈ initCursors next start specs, start < c.val := by
  intro c hc
  unfold initCursors at hc
  rcases List.mem_map.mp hc with ⟨p, _, rfl⟩
  exact hnext p.2 start

theorem slack_lt_fuel {α : Type} (endT : Nat) (cs : List (Cur α)) :
    cursorsSlack endT cs < mergeFuel cs.length endT := by
  unfold cursorsSlack mergeFuel
  have h := List.sum_le_card_nsmul (cs.map (fun c => endT + 1 - c.val))
    (endT + 1) (by
      intro x hx
      rcases List.mem_map.mp hx with ⟨c, _, rfl⟩
      omega)
  rw [List.length_map, smul_eq_mul] at h
  omega

/-- C2: For every descriptor list, window and minimum level, over any
croniter model `next` that strictly advances time, the scheduler output
`list_inv` is strictly increasing in the (fire time, invocation id) key —
hence non-decreasing in fire time, with ties on equal fire time in ascending
sequence id — every emitted fire time lies strictly after `start` and at
most `endT` (so a candidate exactly at `endT` may be emitted and nothing
beyond `endT` ever is), and it is complete: every fire time of a
level-kept descriptor that is at most `endT`, including one exactly equal
to `endT`, appears in the output paired with that descriptor's sequence id
(its position in the level-filtered list), so emission stops exactly at the
first candidate whose fire time exceeds `endT`. -/
theorem list_inv_correct (next : CronInfo → Nat → Nat)
    (hnext : ∀ sp t, t < next sp t)
    (specs : List CronInfo) (start endT : Nat) (minLevel : Int) :
    List.Chain' keyLt (list_inv next specs start endT minLevel) ∧
    (∀ e ∈ list_inv next specs start endT minLevel,
      start < e.1 ∧ e.1 ≤ endT) ∧
    (∀ i sp, (levelFiltered minLevel specs)[i]? = some sp →
      ∀ n, fireTime next sp start n ≤ endT →
        (fireTime next sp start n, i) ∈
          list_inv next specs start endT minLevel) := by
  have hnd :
      (iids (initCursors next start (levelFiltered minLevel specs))).Nodup := by
    rw [iids_initCursors]
    exact List.nodup_range _
  refine ⟨?_, ?_, ?_⟩
  · exact mergeRun_chain hnext endT _ _ hnd
  · exact fun e he => mergeRun_window hnext endT start _ _
      (initCursors_val_gt hnext start _) e he
  · intro i sp h n hn
    have hc : (⟨next sp start, i, sp⟩ : Cur CronInfo) ∈
        initCursors next start (levelFiltered minLevel specs) :=
      mem_initCursors h
    have hsl : cursorsSlack endT
        (initCursors next start (levelFiltered minLevel specs)) <
        mergeFuel (levelFiltered minLevel specs).length endT := by
      have h2 := slack_lt_fuel endT
        (initCursors next start (levelFiltered minLevel specs))
      rw [initCursors_length] at h2
      exact h2
    exact mergeRun_complete hnext endT _ _ hsl hnd _ hc n hn

theorem list_inv_correct_witness :
    List.Chain' keyLt
      (list_inv (fun _ t => t + 3)
        [(⟨[], [], [], [], [], [], [], [], [], []⟩ : CronInfo)] 0 7 0) ∧
    (∀ e ∈ list_inv (fun _ t => t + 3)
        [(⟨[], [], [], [], [], [], [], [], [], []⟩ : CronInfo)] 0 7 0,
      0 < e.1 ∧ e.1 ≤ 7) ∧
    (∀ i sp,
      (levelFiltered 0
        [(⟨[], [], [], [], [], [], [], [], [], []⟩ : CronInfo)])[i]? =
          some sp →
      ∀ n, fireTime (fun _ t => t + 3) sp 0 n ≤ 7 →
        (fireTime (fun _ t => t + 3) sp 0 n, i) ∈
          list_inv (fun _ t => t + 3)
            [(⟨[], [], [], [], [], [], [], [], [], []⟩ : CronInfo)] 0 7 0) :=
  list_inv_correct (fun _ t => t + 3)
    (fun _ t => Nat.lt_add_of_pos_right (by decide))
    [(⟨[], [], [], [], [], [], [], [], [], []⟩ : CronInfo)] 0 7 0

end Cronrepo
